import Mathlib

/-!
Verification development for the sqlplorer data engine (src/src/App.jsx).
The engine's cell values, SQL dump extraction, column type inference,
relational join, grouping/aggregation, sorting and CSV export are embedded
as executable Lean definitions, translated from the JavaScript source.
JavaScript numbers are modelled as rationals; JavaScript `undefined` and
`null` are distinct `Value` constructors.
-/

set_option allowUnsafeReducibility true
attribute [local semireducible] Rat.add Rat.mul Rat.div Rat.sub Rat.inv Rat.neg Rat.ofScientific

namespace Sqlplorer

/-- Cell values of the data engine (App.jsx data model): JavaScript
`undefined`, `null`, numbers (modelled as rationals) and strings. -/
inductive Value where
  | undef
  | null
  | num (q : ℚ)
  | str (s : String)
deriving DecidableEq, Repr

/-- ASCII lower-casing of one character (model of JavaScript
`toLowerCase` on the ASCII range). -/
def lowerChar (c : Char) : Char :=
  if 'A' ≤ c ∧ c ≤ 'Z' then Char.ofNat (c.toNat + 32) else c

/-- ASCII upper-casing of one character (model of JavaScript
`toUpperCase` on the ASCII range). -/
def upperChar (c : Char) : Char :=
  if 'a' ≤ c ∧ c ≤ 'z' then Char.ofNat (c.toNat - 32) else c

/-- ASCII lower-casing of a string. -/
def strToLower (s : String) : String :=
  String.mk (s.toList.map lowerChar)

/-- A row is an ordered association of column names to values (a JavaScript
object literal; key order is insertion order). -/
abbrev Row := List (String × Value)

/-- Property read on a row: a missing key yields JavaScript `undefined`. -/
def rowGet (r : Row) (k : String) : Value :=
  match r.find? (fun p => p.1 == k) with
  | some p => p.2
  | none => Value.undef

/-- Whitespace characters recognised by the model of `String.prototype.trim`. -/
def isWS (c : Char) : Bool :=
  c == ' ' || c == '\t' || c == '\n' || c == '\r'

/-- Model of JavaScript `String.prototype.trim` on character lists. -/
def trimChars (l : List Char) : List Char :=
  ((l.dropWhile isWS).reverse.dropWhile isWS).reverse

/-- Decimal digit to its character. -/
def digitToChar (d : ℕ) : Char :=
  match d with
  | 0 => '0' | 1 => '1' | 2 => '2' | 3 => '3' | 4 => '4'
  | 5 => '5' | 6 => '6' | 7 => '7' | 8 => '8' | _ => '9'

/-- Fuel-driven base-10 digit extraction, least significant first; the fuel
bounds the recursion structurally. -/
def digitsFuel : ℕ → ℕ → List ℕ
  | 0, _ => []
  | fuel + 1, n => if n = 0 then [] else n % 10 :: digitsFuel fuel (n / 10)

/-- Base-10 digits of a natural number, least significant first (the number
itself is always enough fuel). -/
def myDigits (n : ℕ) : List ℕ := digitsFuel n n

/-- Decimal digits of a natural number, most significant first. -/
def renderNat (n : ℕ) : List Char :=
  if n = 0 then ['0'] else ((myDigits n).map digitToChar).reverse

/-- Decimal rendering of an integer, with leading minus sign. -/
def renderInt (i : ℤ) : List Char :=
  if i < 0 then '-' :: renderNat i.natAbs else renderNat i.natAbs

/-- Numeric value of a digit character. -/
def digitVal (c : Char) : ℕ := c.toNat - 48

/-- Read a digit string (most significant first) as a natural number. -/
def parseNatChars (l : List Char) : ℕ :=
  l.foldl (fun a c => 10 * a + digitVal c) 0

/-- Sign-free core of the JavaScript `parseFloat` decimal-literal scan:
consumes integer digits, an optional fraction and an optional exponent
from the front of the list, returning the value and the rest. Returns
`none` when no digit is found (JavaScript `NaN`). -/
def jsParseFloatCore (l1 : List Char) : Option (ℚ × List Char) :=
  let ints := l1.takeWhile Char.isDigit
  let l2 := l1.drop ints.length
  let hasDot := l2.head? = some '.'
  let l2t := if hasDot then l2.tail else l2
  let fracs := if hasDot then l2t.takeWhile Char.isDigit else []
  let l3 := if hasDot then l2t.drop fracs.length else l2
  if ints.isEmpty && fracs.isEmpty then none
  else
    let mantissa : ℚ := (parseNatChars ints : ℚ) + (parseNatChars fracs : ℚ) / 10 ^ fracs.length
    if l3.head? = some 'e' ∨ l3.head? = some 'E' then
      let r := l3.tail
      let esgn : ℤ := if r.head? = some '-' then -1 else 1
      let r1 := if r.head? = some '-' ∨ r.head? = some '+' then r.tail else r
      let eds := r1.takeWhile Char.isDigit
      if eds.isEmpty then some (mantissa, l3)
      else some (mantissa * (10 : ℚ) ^ (esgn * (parseNatChars eds : ℤ)), r1.drop eds.length)
    else some (mantissa, l3)

/-- Model of the JavaScript `parseFloat` decimal-literal scan: consumes an
optional sign then runs the sign-free core, negating the value after a
minus sign. -/
def jsParseFloatAux (l : List Char) : Option (ℚ × List Char) :=
  let sgn : ℚ := if l.head? = some '-' then -1 else 1
  let l1 := if l.head? = some '-' ∨ l.head? = some '+' then l.tail else l
  (jsParseFloatCore l1).map (fun p => (sgn * p.1, p.2))

/-- Model of JavaScript `parseFloat` (leading whitespace skipped, longest
numeric prefix parsed, `none` for `NaN`). -/
def jsParseFloat (l : List Char) : Option ℚ :=
  (jsParseFloatAux (l.dropWhile isWS)).map Prod.fst

/-- Hexadecimal digit test. -/
def isHexDigit (c : Char) : Bool :=
  c.isDigit || ('a' ≤ c && c ≤ 'f') || ('A' ≤ c && c ≤ 'F')

/-- Numeric value of a hexadecimal digit character. -/
def hexVal (c : Char) : ℕ :=
  if c.isDigit then c.toNat - 48
  else if 'a' ≤ c && c ≤ 'f' then c.toNat - 87
  else c.toNat - 55

/-- Model of JavaScript `isFinite(Number(s))` together with the converted
value: `some q` when the whole (already trimmed) string converts to the
finite number `q`, `none` for `NaN` or an infinity. Handles the empty
string (zero), hex/binary/octal literals and decimal literals. -/
def jsFiniteNumber (l0 : List Char) : Option ℚ :=
  let l := trimChars l0
  if l.isEmpty then some 0
  else if l = "Infinity".toList ∨ l = "+Infinity".toList ∨ l = "-Infinity".toList then none
  else
    let rest := l.tail.tail
    if l.head? = some '0' ∧ (l.tail.head? = some 'x' ∨ l.tail.head? = some 'X') then
      if !rest.isEmpty && rest.all isHexDigit then
        some ((rest.foldl (fun a c => 16 * a + hexVal c) 0 : ℕ) : ℚ)
      else none
    else if l.head? = some '0' ∧ (l.tail.head? = some 'b' ∨ l.tail.head? = some 'B') then
      if !rest.isEmpty && rest.all (fun c => c == '0' || c == '1') then
        some ((rest.foldl (fun a c => 2 * a + digitVal c) 0 : ℕ) : ℚ)
      else none
    else if l.head? = some '0' ∧ (l.tail.head? = some 'o' ∨ l.tail.head? = some 'O') then
      if !rest.isEmpty && rest.all (fun c => '0' ≤ c && c ≤ '7') then
        some ((rest.foldl (fun a c => 8 * a + digitVal c) 0 : ℕ) : ℚ)
      else none
    else
      match jsParseFloatAux l with
      | some (q, []) => some q
      | _ => none

/-- Least exponent `k` below 400 with `q * 10 ^ k` integral, used to print
terminating decimals the way JavaScript number-to-string does. -/
def decExp (q : ℚ) : Option ℕ :=
  (List.range 400).find? (fun k => (q * 10 ^ k).den = 1)

/-- Model of JavaScript number-to-string conversion on the rationals the
engine actually produces: integers print as decimal integers, other
terminating decimals with a point and no trailing zeros. (Exponent
notation for extreme magnitudes and non-terminating rationals, which no
JavaScript number corresponds to, are out of the model's range.) -/
def numToChars (q : ℚ) : List Char :=
  if q.den = 1 then renderInt q.num
  else
    match decExp q with
    | some k =>
      let m := (q * 10 ^ k).num
      let ds := (myDigits m.natAbs).map digitToChar
      let ip := (ds.drop k).reverse
      let fp := List.leftpad k '0' ((ds.take k).reverse)
      (if m < 0 then ['-'] else []) ++ (if ip.isEmpty then ['0'] else ip) ++ '.' :: fp
    | none => renderInt q.num ++ '/' :: renderNat q.den

/-- Model of the JavaScript `String(...)` coercion on cell values. -/
def jsToString (v : Value) : String :=
  match v with
  | .undef => "undefined"
  | .null => "null"
  | .num q => String.mk (numToChars q)
  | .str s => s

/-- JavaScript property-key coercion (used by the join's lookup objects):
identical to the `String(...)` coercion. -/
def jsKey (v : Value) : String := jsToString v

/-- JavaScript truthiness of a cell value. -/
def truthy (v : Value) : Bool :=
  match v with
  | .undef => false
  | .null => false
  | .num q => q ≠ 0
  | .str s => s ≠ ""

/-- The `parseFloat(x) || 0` idiom applied to a cell value: the value is
coerced to a string, the longest numeric prefix is parsed, and `NaN`
falls back to `0`. -/
def toNumF (v : Value) : ℚ :=
  (jsParseFloat (jsToString v).toList).getD 0

/-! ## SQL dump extractor (`parseSQLFile`, App.jsx 246-365) -/

/-- Lookup in an insertion-ordered association list (JavaScript object). -/
def lookupA {α : Type} (l : List (String × α)) (k : String) : Option α :=
  (l.find? (fun p => p.1 == k)).map Prod.snd

/-- Assignment on an insertion-ordered association list: an existing key
keeps its position and gets the new value, a new key is appended —
JavaScript object assignment semantics. -/
def updA {α : Type} (l : List (String × α)) (k : String) (v : α) : List (String × α) :=
  if l.any (fun p => p.1 == k) then
    l.map (fun p => if p.1 == k then (k, v) else p)
  else l ++ [(k, v)]

/-- State-machine scan implementing the global `/\(([^)]+)\)/g` match of the
VALUES region (App.jsx 293-297): outside a group (state `none`) a `(`
opens a group; inside a group (state `some acc`) every non-`)` character
is accumulated and a `)` emits the accumulated content when it is
non-empty. Text after an unclosed `(` produces no further match, exactly
like the regex. -/
def extractTuplesAux : List Char → Option (List Char) → List (List Char)
  | [], _ => []
  | c :: rest, none =>
    if c = '(' then extractTuplesAux rest (some []) else extractTuplesAux rest none
  | c :: rest, some acc =>
    if c = ')' then
      if acc.isEmpty then extractTuplesAux rest none
      else acc :: extractTuplesAux rest none
    else extractTuplesAux rest (some (acc ++ [c]))

/-- The global `/\(([^)]+)\)/g` scan of the VALUES region (App.jsx 293-297):
each match is the non-empty run of non-`)` characters between a `(` and
the next `)`. -/
def extractTuples (s : List Char) : List (List Char) :=
  extractTuplesAux s none

/-- One step of the quote-aware field scanner of App.jsx 299-319: walks the
tuple text tracking the previous character, the current field, whether the
scan is inside a quoted literal and which quote character opened it. A
comma outside a quoted literal ends the field (fields are trimmed); an
escaped quote (preceded by a backslash) does not close the literal. -/
def splitTupleAux : List Char → Option Char → List Char → Bool → Char → List (List Char)
  | [], _, current, _, _ => [trimChars current]
  | ch :: rest, prev, current, inString, stringChar =>
    if !inString && (ch == '\'' || ch == '"') then
      splitTupleAux rest (some ch) (current ++ [ch]) true ch
    else if inString && ch == stringChar && prev != some '\\' then
      splitTupleAux rest (some ch) (current ++ [ch]) false stringChar
    else if !inString && ch == ',' then
      trimChars current :: splitTupleAux rest (some ch) [] inString stringChar
    else
      splitTupleAux rest (some ch) (current ++ [ch]) inString stringChar

/-- Quote-aware comma split of one tuple's text (App.jsx 299-319). -/
def splitTuple (valueStr : List Char) : List (List Char) :=
  splitTupleAux valueStr none [] false ' '

/-- Replace every backslash-escaped occurrence of the quote `q` by the bare
quote — the `.replace(/\\'/g, "'")` / `.replace(/\\"/g, '"')` steps of
App.jsx 324. -/
def unescape (q : Char) : List Char → List Char
  | [] => []
  | [c] => [c]
  | c1 :: c2 :: rest =>
    if c1 = '\\' ∧ c2 = q then c2 :: unescape q rest
    else c1 :: unescape q (c2 :: rest)

/-- The lexical value decoder (App.jsx 321-330): trim, strip one layer of
matching surrounding quotes (un-escaping inner quotes), decode unquoted
`NULL` (case-insensitively) to null, decode a finite numeric string to a
number, otherwise keep the trimmed string. -/
def cleanValue (v0 : List Char) : Value :=
  let v := trimChars v0
  if (v.head? = some '\'' ∧ v.getLast? = some '\'') ∨
      (v.head? = some '"' ∧ v.getLast? = some '"') then
    Value.str (String.mk (unescape '"' (unescape '\'' ((v.drop 1).dropLast))))
  else if v.map upperChar = "NULL".toList then Value.null
  else
    match jsParseFloat v, jsFiniteNumber v with
    | some q, some _ => Value.num q
    | _, _ => Value.str (String.mk v)

/-- A statement recognised by `parseSQLFile`'s two regex scans. The
statement segmentation itself (the `createTableRegex` and `insertRegex`
matches over the comment-stripped text, App.jsx 258-284) is modelled by
this pre-segmented list: a `create` carries the table name and the ordered
column names recognised by the `colRegex` scan of its definition block; an
`insert` carries the table name, the raw explicit column list if one was
written, and the raw text of its VALUES region. -/
inductive SqlStmt where
  | create (tableName : String) (columnDefs : List String)
  | insert (tableName : String) (explicitCols : Option String) (valuesBlock : List Char)

/-- Characters removed from explicit column names (App.jsx 288). -/
def isQuoteChar (c : Char) : Bool :=
  c == '`' || c == '"' || c == '\'' || c == '[' || c == ']'

/-- Explicit column list handling of App.jsx 288: split on commas, trim,
strip quote and bracket characters. -/
def splitExplicitCols (s : String) : List String :=
  (s.splitOn ",").map (fun c =>
    String.mk ((trimChars c.toList).filter (fun ch => !isQuoteChar ch)))

/-- One parsed row (App.jsx 336-340): the running `_id`, then each known
column paired with its decoded value, null when the tuple is short. -/
def tupleRow (cols : List String) (idx : ℕ) (cleanedValues : List Value) : Row :=
  ("_id", Value.num (idx : ℚ)) ::
    (cols.enum.map (fun p => (p.2, cleanedValues.getD p.1 Value.null)))

/-- Synthesised column names `column_1, column_2, …` (App.jsx 332-334). -/
def synthCols (n : ℕ) : List String :=
  (List.range n).map (fun i => "column_" ++ toString (i + 1))

/-- Processing of one value-tuple (App.jsx 297-340): comma-split and decode
the tuple, synthesise column names from its arity when none are known,
and append the new row. -/
def processTuplesStep (acc : List String × List Row) (tupleStr : List Char) :
    List String × List Row :=
  let cleanedValues := (splitTuple tupleStr).map cleanValue
  let cols' := if acc.1.isEmpty then synthCols cleanedValues.length else acc.1
  (cols', acc.2 ++ [tupleRow cols' acc.2.length cleanedValues])

/-- Fold over the value-tuples of one INSERT block (App.jsx 297-341). -/
def processTuples (cols0 : List String) (tuples : List (List Char)) : List String × List Row :=
  tuples.foldl processTuplesStep (cols0, [])

/-- First pass of `parseSQLFile` (App.jsx 258-277): record each CREATE
TABLE's recognised column list (tables with zero recognised columns are
dropped) under the lower-cased table name. -/
def collectSchemas (stmts : List SqlStmt) : List (String × List String) :=
  stmts.foldl
    (fun schemas stmt =>
      match stmt with
      | .create name defs =>
        if defs.isEmpty then schemas else updA schemas (strToLower name) defs
      | .insert _ _ _ => schemas)
    []

/-- Second pass of `parseSQLFile` (App.jsx 279-350): process each INSERT
block against the recorded schemas, accumulating rows per lower-cased
table name across blocks (a block producing zero rows registers nothing). -/
def collectInserts (schemas : List (String × List String)) (stmts : List SqlStmt) :
    List (String × (List String × List Row)) :=
  stmts.foldl
    (fun tablesAcc stmt =>
      match stmt with
      | .create _ _ => tablesAcc
      | .insert name explicitCols valuesBlock =>
        let tn := strToLower name
        let cols0 :=
          match explicitCols with
          | some s => splitExplicitCols s
          | none => (lookupA schemas tn).getD []
        let (colsF, rows) := processTuples cols0 (extractTuples valuesBlock)
        if rows.isEmpty then tablesAcc
        else
          match lookupA tablesAcc tn with
          | some (cs, existing) => updA tablesAcc tn (cs, existing ++ rows)
          | none => tablesAcc ++ [(tn, (colsF, rows))])
    []

/-- Re-assign each table's `_id`s sequentially (App.jsx 352-355): the final
table collection keeps only the rows, `_id` rewritten to the row's final
position. -/
def reindexRows (rows : List Row) : List Row :=
  rows.enum.map (fun p =>
    p.2.map (fun e => if e.1 == "_id" then ("_id", Value.num (p.1 : ℚ)) else e))

/-- The SQL dump extractor `parseSQLFile` (App.jsx 246-365) over the
pre-segmented statement list: returns the extracted table collection
(diagnostic log lines are omitted from the model). -/
def parseSQL (stmts : List SqlStmt) : List (String × List Row) :=
  (collectInserts (collectSchemas stmts) stmts).map
    (fun p => (p.1, reindexRows p.2.2))

/-! ## Column type inference (`detectColumnType`, App.jsx 184-205) -/

/-- The inferred column types. -/
inductive ColType where
  | number
  | date
  | category
  | text
deriving DecidableEq, Repr

/-- Characters stripped before numeric parsing (the `/[$,€£¥]/g` class of
App.jsx 189; note it includes the comma). -/
def isCurrencyChar (c : Char) : Bool :=
  c == '$' || c == ',' || c == '€' || c == '£' || c == '¥'

/-- Currency-symbol stripping and trim applied before numeric tests
(App.jsx 189, 378). -/
def cleanNumeric (v : Value) : List Char :=
  trimChars ((jsToString v).toList.filter (fun c => !isCurrencyChar c))

/-- The `^\d\x7b4\x7d-\d\x7b2\x7d-\d\x7b2\x7d` ISO date prefix test of App.jsx 195. -/
def isoDatePrefix (l : List Char) : Bool :=
  match l with
  | a :: b :: c :: d :: '-' :: e :: f :: '-' :: g :: h :: _ =>
    a.isDigit && b.isDigit && c.isDigit && d.isDigit &&
      e.isDigit && f.isDigit && g.isDigit && h.isDigit
  | _ => false

/-- The `^\d\x7b1,2\x7d/\d\x7b1,2\x7d/\d\x7b2,4\x7d` slash date prefix test of
App.jsx 195: one or two digits, a slash, one or two digits, a slash, at
least two digits. -/
def slashDatePrefix (l : List Char) : Bool :=
  let d1 := (l.takeWhile Char.isDigit).length
  if 1 ≤ d1 ∧ d1 ≤ 2 then
    match l.drop d1 with
    | '/' :: r1 =>
      let d2 := (r1.takeWhile Char.isDigit).length
      if 1 ≤ d2 ∧ d2 ≤ 2 then
        match r1.drop d2 with
        | '/' :: r2 => decide (2 ≤ (r2.takeWhile Char.isDigit).length)
        | _ => false
      else false
    | _ => false
  else false

/-- Column type inference (App.jsx 184-205): sample the first 100
non-null/non-empty values; more than 70 percent numeric gives `number`,
else more than 70 percent date-like gives `date`, else a distinct-value
ratio below 0.3 over a sample larger than 5 gives `category`, else
`text`. `dateParse` abstracts the engine-dependent JavaScript
`Date.parse` success test; no result below depends on its extension. -/
def detectColumnType (dateParse : String → Bool) (values : List Value) : ColType :=
  let sample := (values.filter
    (fun v => v ≠ Value.null ∧ v ≠ Value.str "" ∧ v ≠ Value.undef)).take 100
  if sample.length = 0 then ColType.text
  else
    let numericCount := (sample.filter (fun v =>
      (jsParseFloat (cleanNumeric v)).isSome && (jsFiniteNumber (cleanNumeric v)).isSome)).length
    let dateCount := (sample.filter (fun v =>
      match v with
      | Value.str s => dateParse s || isoDatePrefix s.toList || slashDatePrefix s.toList
      | _ => false)).length
    if (numericCount : ℚ) > sample.length * (7 / 10) then ColType.number
    else if (dateCount : ℚ) > sample.length * (7 / 10) then ColType.date
    else if (sample.dedup.length : ℚ) / sample.length < 3 / 10 ∧ sample.length > 5 then
      ColType.category
    else ColType.text

/-- Per-column type inference over a table (App.jsx 368-372). -/
def inferTypes (dateParse : String → Bool) (tableData : List Row) (cols : List String) :
    List (String × ColType) :=
  cols.map (fun col =>
    (col, detectColumnType dateParse (tableData.map (fun r => rowGet r col))))

/-- One cell of the type-processed table (App.jsx 376-382): a
`number`-typed, non-null, non-undefined cell is coerced to a number
(currency symbols stripped, parse failure giving 0); every other cell
passes through unchanged. -/
def processCell (types : List (String × ColType)) (r : Row) (col : String) : String × Value :=
  let v := rowGet r col
  if lookupA types col = some ColType.number ∧ v ≠ Value.null ∧ v ≠ Value.undef then
    (col, Value.num ((jsParseFloat (cleanNumeric v)).getD 0))
  else (col, v)

/-- One row of the type-processed table (App.jsx 374-384): a fresh
sequential `_id` followed by every column's processed cell. -/
def processRow (types : List (String × ColType)) (cols : List String) (i : ℕ) (r : Row) : Row :=
  ("_id", Value.num (i : ℚ)) :: cols.map (processCell types r)

/-- Type-processing of a table (`processTableData`, App.jsx 367-388): infer
each column's type from its values, then rebuild every row. -/
def processTableData (dateParse : String → Bool) (tableData : List Row) (cols : List String) :
    List Row × List (String × ColType) :=
  let types := inferTypes dateParse tableData cols
  (tableData.enum.map (fun p => processRow types cols p.1 p.2), types)

/-! ## Relational join (`processContent`, App.jsx 434-499) -/

/-- Lookup object keyed by the string-coerced `id` field; later rows
overwrite earlier rows with the same key, exactly as the
`cardsMap`/`programsMap` construction of App.jsx 436-448. -/
def lookupByKey (rows : List Row) (k : String) : Option Row :=
  rows.foldl (fun acc r => if jsKey (rowGet r "id") == k then some r else acc) none

/-- Card resolution for a transaction (App.jsx 457): look the transaction's
`card_id` up in the cards lookup. (The source consults the map under both
the native and the string-coerced key, which coincide because JavaScript
property keys are strings.) -/
def cardLookup (cards : List Row) (txn : Row) : Option Row :=
  lookupByKey cards (jsKey (rowGet txn "card_id"))

/-- The `card.card_program_id` read of App.jsx 458: an unmatched card is the
empty object, whose property read gives `undefined`. -/
def joinProgramId (cards : List Row) (txn : Row) : Value :=
  match cardLookup cards txn with
  | some c => rowGet c "card_program_id"
  | none => Value.undef

/-- Program resolution (App.jsx 459): only a truthy program id is looked
up. -/
def programLookup (programs : List Row) (pid : Value) : Option Row :=
  if truthy pid then lookupByKey programs (jsKey pid) else none

/-- The program-name fallback of App.jsx 468-473 when no resolved program
supplies a truthy `display_name`/`name`: a present (non-null,
non-undefined) program id labels the row `Program #<id>`, otherwise the
literal `Unknown Program`. -/
def fallbackName (pid : Value) : Value :=
  if pid ≠ Value.undef ∧ pid ≠ Value.null then
    Value.str ("Program #" ++ jsToString pid)
  else Value.str "Unknown Program"

/-- `card_program_name` computation (App.jsx 468-473). -/
def joinProgramName (programs : List Row) (pid : Value) : Value :=
  match programLookup programs pid with
  | some p =>
    let dn := rowGet p "display_name"
    let n := rowGet p "name"
    if truthy dn || truthy n then (if truthy dn then dn else n)
    else fallbackName pid
  | none => fallbackName pid

/-- One joined row (App.jsx 475-480): the object literal starts from
`_id: idx`, spreads all transaction fields over it (so a transaction's own
`_id` wins), then assigns `card_program_id` and `card_program_name`. -/
def joinOne (cards programs : List Row) (idx : ℕ) (txn : Row) : Row :=
  let pid := joinProgramId cards txn
  let base := txn.foldl (fun acc e => updA acc e.1 e.2) [("_id", Value.num (idx : ℚ))]
  updA (updA base "card_program_id" pid) "card_program_name" (joinProgramName programs pid)

/-- Result of the transactions-cards-programs join. -/
structure JoinResult where
  joined : List Row
  matchedCards : ℕ
  matchedPrograms : ℕ
  unmatchedCardIds : List Value

/-- One step of the unmatched-`card_id` set accumulation (App.jsx 453, 464):
a JavaScript `Set.add` keyed by value equality, in transaction order. -/
def unmatchedStep (cards : List Row) (acc : List Value) (t : Row) : List Value :=
  if (cardLookup cards t).isSome then acc
  else
    let v := rowGet t "card_id"
    if v ∈ acc then acc else acc ++ [v]

/-- The best-effort left join of App.jsx 450-483: every transaction yields
exactly one joined row; match counters and the insertion-ordered,
duplicate-free set of unmatched `card_id`s are tracked for diagnostics. -/
def joinTables (txns cards programs : List Row) : JoinResult :=
  { joined := txns.enum.map (fun p => joinOne cards programs p.1 p.2)
    matchedCards := (txns.filter (fun t => (cardLookup cards t).isSome)).length
    matchedPrograms :=
      (txns.filter (fun t => (programLookup programs (joinProgramId cards t)).isSome)).length
    unmatchedCardIds := txns.foldl (unmatchedStep cards) [] }

/-! ## Sorting (App.jsx 81-91, 131-141, 760-777) -/

/-- Sort direction. -/
inductive SortDir where
  | asc
  | desc
deriving DecidableEq, Repr

/-- JavaScript `ToNumber` coercion on cell values (`none` is `NaN`). -/
def jsToNumber (v : Value) : Option ℚ :=
  match v with
  | .num q => some q
  | .str s => jsFiniteNumber s.toList
  | .null => some 0
  | .undef => none

/-- Lexicographic comparison of character lists by code point, the
JavaScript string ordering. -/
def charListLt : List Char → List Char → Bool
  | [], [] => false
  | [], _ :: _ => true
  | _ :: _, [] => false
  | a :: as, b :: bs => if a < b then true else if b < a then false else charListLt as bs

/-- The JavaScript `<` comparison on cell values: two strings compare
lexicographically, otherwise both sides are coerced to numbers and any
`NaN` makes the comparison false. -/
def jsLt (a b : Value) : Bool :=
  match a, b with
  | .str s, .str t => charListLt s.toList t.toList
  | _, _ =>
    match jsToNumber a, jsToNumber b with
    | some x, some y => decide (x < y)
    | _, _ => false

/-- The query-pipeline sort comparator (App.jsx 771-775): null/undefined on
the left returns 1, on the right returns -1 (before any direction
handling), then raw `<`/`>` comparisons ordered by direction. -/
def cmpFiltered (dir : SortDir) (a b : Value) : Int :=
  if a = Value.null ∨ a = Value.undef then 1
  else if b = Value.null ∨ b = Value.undef then -1
  else if jsLt a b then (if dir = SortDir.asc then -1 else 1)
  else if jsLt b a then (if dir = SortDir.asc then 1 else -1)
  else 0

/-- Lower-case a string value, leave anything else alone (App.jsx 85-86). -/
def lowerIfStr (v : Value) : Value :=
  match v with
  | .str s => .str (strToLower s)
  | _ => v

/-- The card/program summary sort comparator (App.jsx 83-90): string values
are lower-cased, then raw `<`/`>` comparisons ordered by direction; there
is no null/undefined handling. -/
def cmpSummary (dir : SortDir) (a0 b0 : Value) : Int :=
  let a := lowerIfStr a0
  let b := lowerIfStr b0
  if jsLt a b then (if dir = SortDir.asc then -1 else 1)
  else if jsLt b a then (if dir = SortDir.asc then 1 else -1)
  else 0

/-- Stable insertion of an element behind every earlier element it does not
strictly precede. -/
def insertCmp {α : Type} (cmp : α → α → Int) (x : α) : List α → List α
  | [] => [x]
  | y :: ys => if cmp x y < 0 then x :: y :: ys else y :: insertCmp cmp x ys

/-- Stable comparator sort (JavaScript `Array.prototype.sort` is stable;
for a consistent comparator any stable sort produces the same list). -/
def sortWithCmp {α : Type} (cmp : α → α → Int) (l : List α) : List α :=
  l.foldl (fun acc x => insertCmp cmp x acc) []

/-- A calculated column (App.jsx 706-711): `ext_total` multiplies the
quantity-role column by the amount-role column; the stored closure is
modelled by the two captured column names. -/
structure CalcCol where
  name : String
  qtyCol : String
  amtCol : String
deriving DecidableEq, Repr

/-- Evaluate a calculated column on a row (App.jsx 710). -/
def calcEval (c : CalcCol) (r : Row) : ℚ :=
  toNumF (rowGet r c.qtyCol) * toNumF (rowGet r c.amtCol)

/-- The sort stage of the query pipeline (App.jsx 760-777): no sort key
leaves the rows alone; a calculated-column key sorts by the formula's
value, any other key by the stored field, with `cmpFiltered`. -/
def applySort (calcCols : List CalcCol) (key : Option String) (dir : SortDir)
    (rows : List Row) : List Row :=
  match key with
  | none => rows
  | some k =>
    let getVal := fun (r : Row) =>
      match calcCols.find? (fun c => c.name == k) with
      | some c => Value.num (calcEval c r)
      | none => rowGet r k
    sortWithCmp (fun a b => cmpFiltered dir (getVal a) (getVal b)) rows

/-- The card/program summary sort (App.jsx 81-91, 131-141): sort the
summary rows by the chosen field with `cmpSummary`. -/
def sortSummaries (key : String) (dir : SortDir) (entries : List Row) : List Row :=
  sortWithCmp (fun a b => cmpSummary dir (rowGet a key) (rowGet b key)) entries

/-! ## Grouping and aggregation (`categoryBreakdown`, App.jsx 816-853) -/

/-- Aggregation mode. -/
inductive AggType where
  | sum
  | count
deriving DecidableEq, Repr

/-- One group of the breakdown (App.jsx 831). -/
structure BDEntry where
  name : String
  value : ℚ
  qty : ℚ
  count : ℕ
  fullName : String
deriving DecidableEq, Repr

/-- The per-row contribution to a group's `value` field (App.jsx 836-841):
when amount and quantity roles are detected and the `ext_total` calculated
column exists, its formula; otherwise the amount-role cell, or nothing. -/
def bdValueContribution (detAmount detQty : Option String) (calcColumns : List CalcCol)
    (row : Row) : ℚ :=
  match calcColumns.find? (fun c => c.name == "ext_total") with
  | some cc =>
    if detAmount.isSome ∧ detQty.isSome then calcEval cc row
    else match detAmount with
      | some a => toNumF (rowGet row a)
      | none => 0
  | none =>
    match detAmount with
    | some a => toNumF (rowGet row a)
    | none => 0

/-- A fresh, zeroed bucket for a group key (App.jsx 831). -/
def freshBDEntry (cat : Value) : BDEntry :=
  { name := String.mk ((jsToString cat).toList.take 25), value := 0, qty := 0,
    count := 0, fullName := jsToString cat }

/-- Bucket accumulation (App.jsx 834-845): one more row, plus the value and
quantity contributions. -/
def bdBump (contribution qtyContribution : ℚ) (e : BDEntry) : BDEntry :=
  { e with
    count := e.count + 1
    value := e.value + contribution
    qty := e.qty + qtyContribution }

/-- The quantity-role contribution of one row (App.jsx 843-845). -/
def bdQtyContribution (detQty : Option String) (row : Row) : ℚ :=
  match detQty with
  | some qc => toNumF (rowGet row qc)
  | none => 0

/-- Accumulate one filtered row into the breakdown (App.jsx 826-846): a
falsy group-key cell is skipped, otherwise the bucket keyed by the
string-coerced cell gains one count, the value contribution and the
quantity-role cell. -/
def bdStep (catCol : String) (detAmount detQty : Option String) (calcColumns : List CalcCol)
    (bd : List (String × BDEntry)) (row : Row) : List (String × BDEntry) :=
  let cat := rowGet row catCol
  if !truthy cat then bd
  else
    let k := jsToString cat
    let bd1 :=
      if (lookupA bd k).isSome then bd
      else bd ++ [(k, freshBDEntry cat)]
    bd1.map (fun p =>
      if p.1 == k then
        (p.1, bdBump (bdValueContribution detAmount detQty calcColumns row)
          (bdQtyContribution detQty row) p.2)
      else p)

/-- The group/aggregate stage (App.jsx 816-853): group the filtered rows by
the chosen column (the explicit group-by column, else the detected
category or account role), sort the groups descending by the aggregation
key (`value` in sum mode, `count` in count mode) and truncate to the
top-N limit when it is positive. -/
def categoryBreakdown (groupByColumn : String) (detCategory detAccount detAmount detQty : Option String)
    (calcColumns : List CalcCol) (aggregationType : AggType) (topN : ℤ)
    (filteredRows : List Row) : List BDEntry :=
  let catColOpt :=
    if groupByColumn ≠ "" then some groupByColumn
    else match detCategory with
      | some c => some c
      | none => detAccount
  match catColOpt with
  | none => []
  | some catCol =>
    let entries :=
      (filteredRows.foldl (bdStep catCol detAmount detQty calcColumns) []).map Prod.snd
    let f : BDEntry → ℚ :=
      if aggregationType = AggType.count then (fun e => (e.count : ℚ)) else (fun e => e.value)
    let sorted := sortWithCmp (fun a b => if f b < f a then -1 else if f a < f b then 1 else 0) entries
    if topN > 0 then sorted.take topN.toNat else sorted

/-! ## CSV export (`exportCSV`, App.jsx 932-947) -/

/-- Double every double-quote in a string (App.jsx 942). -/
def doubleQuotes (s : String) : String :=
  String.mk ((s.toList.map (fun c => if c = '"' then ['"', '"'] else [c])).flatten)

/-- The per-value CSV field encoding of App.jsx 940-944: null/undefined
become the empty field, a string containing a comma or double-quote is
wrapped in double quotes with inner quotes doubled, anything else is the
value's string coercion. -/
def exportField (v : Value) : String :=
  match v with
  | .null => ""
  | .undef => ""
  | .str s =>
    if s.toList.contains ',' || s.toList.contains '"' then
      "\"" ++ doubleQuotes s ++ "\""
    else s
  | .num q => String.mk (numToChars q)

/-! ## Query state and table switching (App.jsx 12-30, 637-655) -/

/-- The drill-down cursor (App.jsx 28). -/
structure Drilldown where
  level : String
  cardId : Option Value
  programId : Option Value
  programName : Option Value
deriving DecidableEq, Repr

/-- The drill-down default (App.jsx 28). -/
def defaultDrilldown : Drilldown :=
  { level := "overview", cardId := none, programId := none, programName := none }

/-- The query state held by the component (App.jsx 8-30), restricted to the
fields the engine's spec calls query state. -/
structure QueryState where
  activeTable : String
  columns : List String
  columnTypes : List (String × ColType)
  filters : List (String × String)
  selectedCategory : String
  selectedMonth : String
  sortKey : Option String
  sortDirection : SortDir
  groupByColumn : String
  aggregationType : AggType
  topN : ℤ
  drilldown : Drilldown
  calculatedColumns : List CalcCol

/-- `switchTable` (App.jsx 637-655): a missing or empty table leaves the
state unchanged; otherwise the active table, its columns and their
re-inferred types are installed and exactly the filters, selected
category, sort configuration and calculated columns are reset. -/
def switchTable (dateParse : String → Bool) (tables : List (String × List Row))
    (st : QueryState) (tableName : String) : QueryState :=
  match lookupA tables tableName with
  | none => st
  | some tableData =>
    if tableData.isEmpty then st
    else
      let cols := ((tableData.headD []).map Prod.fst).filter (fun k => k ≠ "_id")
      let types := cols.map (fun col =>
        (col, detectColumnType dateParse (tableData.map (fun r => rowGet r col))))
      { st with
        activeTable := tableName
        columns := cols
        columnTypes := types
        filters := []
        selectedCategory := "all"
        sortKey := none
        sortDirection := SortDir.asc
        calculatedColumns := [] }

/-! ## Spec-side renderers for well-formed SQL shapes -/

/-- Join field texts with a comma-space separator, as written between the
fields of one VALUES tuple. -/
def joinFields : List (List Char) → List Char
  | [] => []
  | [f] => f
  | f :: fs => f ++ ',' :: ' ' :: joinFields fs

/-- Render one value-tuple as SQL source text: the fields joined by
comma-space, wrapped in parentheses. -/
def renderTuple (t : List String) : List Char :=
  '(' :: (joinFields (t.map String.toList) ++ [')'])

/-- Render a VALUES region: the tuples joined by comma-space. This is the
spec's well-formed `VALUES (...), (...), …` shape. -/
def renderBlock : List (List String) → List Char
  | [] => []
  | [t] => renderTuple t
  | t :: ts => renderTuple t ++ ',' :: ' ' :: renderBlock ts

/-!
## Theorems

Each claim of the specification is settled by one theorem below.
-/

/-- Helper: `find?` over a keyed map of the columns finds the first
occurrence of a member column with its computed value. -/
theorem find_keyed_map (g : String → Value) (cols : List String) (col : String)
    (h : col ∈ cols) :
    (cols.map (fun c => (c, g c))).find? (fun p => p.1 == col) = some (col, g col) := by
  induction cols with
  | nil => cases h
  | cons c cs ih =>
    rcases List.mem_cons.mp h with rfl | hmem
    · simp [List.find?]
    · by_cases hc : c = col
      · subst hc; simp [List.find?]
      · simp only [List.map_cons, List.find?]
        rw [show ((c, g c).1 == col) = false by simpa using hc]
        exact ih hmem

/-- C2: the tuple splitter is quote-aware: running the extractor on the
single statement `INSERT INTO t VALUES ('a,b', 2, NULL)` yields exactly
one row for table `t` whose three (synthesised) columns hold, in order,
the string `a,b` — the comma inside the quoted literal did not split the
field and the quotes are stripped — the number `2`, and null (not the
string `NULL`). -/
theorem c2_quote_aware_tuple_split :
    parseSQL [SqlStmt.insert "t" none "('a,b', 2, NULL)".toList] =
      [("t", [[("_id", Value.num 0), ("column_1", Value.str "a,b"),
               ("column_2", Value.num 2), ("column_3", Value.null)]])] := by
  decide

/-- C10: a column whose values are all null, undefined or the empty string
has an empty non-null sample, and the type classifier returns `text` for
it — for every model of the `Date.parse` test — rather than dividing by
the zero sample size or producing any other type. -/
theorem c10_empty_sample_is_text (dateParse : String → Bool) (values : List Value)
    (h : ∀ v ∈ values, v = Value.null ∨ v = Value.undef ∨ v = Value.str "") :
    detectColumnType dateParse values = ColType.text := by
  have hfilter :
      values.filter (fun v => v ≠ Value.null ∧ v ≠ Value.str "" ∧ v ≠ Value.undef) = [] := by
    rw [List.filter_eq_nil_iff]
    intro a ha
    rcases h a ha with h1 | h1 | h1 <;> simp [h1]
  unfold detectColumnType
  rw [hfilter]
  simp

/-- Witness for C10 at a concrete all-null/empty column. -/
theorem c10_empty_sample_is_text_witness :
    detectColumnType (fun _ => false) [Value.null, Value.str "", Value.undef] = ColType.text :=
  c10_empty_sample_is_text (fun _ => false) _ (by decide)

/-- C7 counterexample: the claim says every cell of a `number`-classified
column holds a number after type-processing. On the one-column table with
values `"1"`, `"2"`, null the column is classified `number`, yet the
third processed cell is still null, not a number: null cells are skipped
by the coercion (App.jsx 377). -/
theorem c7_counterexample :
    lookupA (processTableData (fun _ => false)
        [[("a", Value.str "1")], [("a", Value.str "2")], [("a", Value.null)]] ["a"]).2 "a" =
      some ColType.number ∧
    rowGet ((processTableData (fun _ => false)
        [[("a", Value.str "1")], [("a", Value.str "2")], [("a", Value.null)]] ["a"]).1.getD 2 [])
        "a" = Value.null := by
  decide

/-- C7 (amended): after type-processing, every cell of a `number`-classified
column that was not null/undefined holds a number — the cleaned text's
numeric prefix, or 0 when parsing fails entirely — while null and
undefined cells pass through unchanged. -/
theorem c7_number_column_coercion (dateParse : String → Bool) (tableData : List Row)
    (cols : List String) (col : String) (hmem : col ∈ cols) (hid : col ≠ "_id")
    (htype : lookupA (processTableData dateParse tableData cols).2 col = some ColType.number)
    (i : ℕ) (r0 : Row) (hrow : tableData[i]? = some r0) :
    ∃ r, (processTableData dateParse tableData cols).1[i]? = some r ∧
      rowGet r col =
        (if rowGet r0 col = Value.null ∨ rowGet r0 col = Value.undef then rowGet r0 col
         else Value.num ((jsParseFloat (cleanNumeric (rowGet r0 col))).getD 0)) := by
  unfold processTableData at htype ⊢
  simp only at htype ⊢
  refine ⟨processRow (inferTypes dateParse tableData cols) cols i r0, ?_, ?_⟩
  · rw [List.getElem?_map, List.getElem?_enum, hrow]
    rfl
  · rw [processRow, rowGet, List.find?]
    rw [show (("_id", Value.num (i : ℚ)).1 == col) = false by
      simpa using fun hcontra => hid hcontra.symm]
    have hmap : cols.map (processCell (inferTypes dateParse tableData cols) r0) =
        cols.map (fun c => (c, (processCell (inferTypes dateParse tableData cols) r0 c).2)) := by
      apply List.map_congr_left
      intro c _
      rw [processCell]
      by_cases hc : lookupA (inferTypes dateParse tableData cols) c = some ColType.number ∧
          rowGet r0 c ≠ Value.null ∧ rowGet r0 c ≠ Value.undef
      · rw [if_pos hc]
      · rw [if_neg hc]
    rw [hmap, find_keyed_map (fun c => (processCell (inferTypes dateParse tableData cols) r0 c).2)
      cols col hmem]
    simp only [processCell]
    rw [htype]
    by_cases hnull : rowGet r0 col = Value.null ∨ rowGet r0 col = Value.undef
    · rcases hnull with h1 | h1 <;> simp [h1]
    · push_neg at hnull
      rw [if_pos ⟨rfl, hnull.1, hnull.2⟩, if_neg (by tauto)]

/-- Witness for C7 (amended) at a concrete numeric column with a null cell
and an unparseable cell. -/
theorem c7_number_column_coercion_witness :
    ∃ r, (processTableData (fun _ => false)
        [[("a", Value.str "1")], [("a", Value.str "2")], [("a", Value.null)]] ["a"]).1[2]? =
          some r ∧
      rowGet r "a" =
        (if rowGet [("a", Value.null)] "a" = Value.null ∨
            rowGet [("a", Value.null)] "a" = Value.undef then rowGet [("a", Value.null)] "a"
         else Value.num ((jsParseFloat (cleanNumeric (rowGet [("a", Value.null)] "a"))).getD 0)) :=
  c7_number_column_coercion (fun _ => false) _ _ "a" (by decide) (by decide) (by decide) 2 _
    (by decide)

/-- C9 counterexample: the claim says every component of the query state —
including the selected month, group-by column, aggregation mode, top-N
limit and drill-down cursor — is reset to its default on a table switch.
Switching to a non-empty table from a state with a selected month keeps
the month (and likewise group-by, aggregation, top-N and drill-down are
untouched by `switchTable`, App.jsx 637-655). -/
theorem c9_counterexample :
    (switchTable (fun _ => false) [("t", [[("x", Value.num 1)]])]
      { activeTable := "a", columns := [], columnTypes := [], filters := [],
        selectedCategory := "all", selectedMonth := "2024-01", sortKey := none,
        sortDirection := SortDir.asc, groupByColumn := "x",
        aggregationType := AggType.count, topN := 3,
        drilldown := { level := "card", cardId := some (Value.num 1), programId := none,
                       programName := none },
        calculatedColumns := [] } "t").selectedMonth ≠ "all" := by
  decide

/-- C9 (amended): switching the active table resets exactly the per-column
filters, the selected category, the sort key and direction and the
calculated-column definitions to their defaults, while the selected
month, group-by column, aggregation mode, top-N limit and drill-down
cursor retain their previous values. -/
theorem c9_switch_table_resets (dateParse : String → Bool)
    (tables : List (String × List Row)) (st : QueryState) (tableName : String)
    (tableData : List Row) (hfound : lookupA tables tableName = some tableData)
    (hne : tableData ≠ []) :
    let st' := switchTable dateParse tables st tableName
    st'.filters = [] ∧ st'.selectedCategory = "all" ∧ st'.sortKey = none ∧
      st'.sortDirection = SortDir.asc ∧ st'.calculatedColumns = [] ∧
      st'.activeTable = tableName ∧
      st'.selectedMonth = st.selectedMonth ∧ st'.groupByColumn = st.groupByColumn ∧
      st'.aggregationType = st.aggregationType ∧ st'.topN = st.topN ∧
      st'.drilldown = st.drilldown := by
  intro st'
  have : st' = switchTable dateParse tables st tableName := rfl
  rw [this, switchTable, hfound]
  simp only [List.isEmpty_iff]
  rw [if_neg hne]
  exact ⟨rfl, rfl, rfl, rfl, rfl, rfl, rfl, rfl, rfl, rfl, rfl⟩

/-- Witness for C9 (amended) at a concrete table collection and state. -/
theorem c9_switch_table_resets_witness :
    let st : QueryState :=
      { activeTable := "a", columns := [], columnTypes := [], filters := [("x", "f")],
        selectedCategory := "c", selectedMonth := "2024-01", sortKey := some "x",
        sortDirection := SortDir.desc, groupByColumn := "x",
        aggregationType := AggType.count, topN := 3, drilldown := defaultDrilldown,
        calculatedColumns := [] }
    let st' := switchTable (fun _ => false) [("t", [[("x", Value.num 1)]])] st "t"
    st'.filters = [] ∧ st'.selectedCategory = "all" ∧ st'.sortKey = none ∧
      st'.sortDirection = SortDir.asc ∧ st'.calculatedColumns = [] ∧
      st'.activeTable = "t" ∧
      st'.selectedMonth = st.selectedMonth ∧ st'.groupByColumn = st.groupByColumn ∧
      st'.aggregationType = st.aggregationType ∧ st'.topN = st.topN ∧
      st'.drilldown = st.drilldown :=
  c9_switch_table_resets (fun _ => false) _ _ "t" [[("x", Value.num 1)]] (by decide)
    (by decide)

/-! ### Association-list and lookup lemmas for the join -/

/-- Two pointwise-equal predicates find the same element. -/
theorem find_congr {α : Type} (p q : α → Bool) (l : List α) (h : ∀ a, p a = q a) :
    l.find? p = l.find? q := by
  induction l with
  | nil => rfl
  | cons x rest ih =>
    by_cases hx : p x
    · rw [List.find?_cons_of_pos _ hx, List.find?_cons_of_pos _ (h x ▸ hx)]
    · rw [List.find?_cons_of_neg _ hx, List.find?_cons_of_neg _ (h x ▸ hx), ih]

/-- Assignment then read of the same key gives the assigned value. -/
theorem updA_get_same (r : Row) (k : String) (v : Value) : rowGet (updA r k v) k = v := by
  unfold updA rowGet
  by_cases h : r.any (fun p => p.1 == k)
  · rw [if_pos h]
    rw [List.find?_map]
    rw [find_congr _ (fun p => p.1 == k) r (by
      intro a
      by_cases ha : a.1 = k <;> simp [Function.comp, ha])]
    obtain ⟨a, ha, hak⟩ := List.any_eq_true.mp h
    have hsome : (r.find? (fun p => p.1 == k)).isSome := List.find?_isSome.mpr ⟨a, ha, hak⟩
    obtain ⟨b, hb⟩ := Option.isSome_iff_exists.mp hsome
    have hbk := List.find?_some hb
    rw [hb]
    have hbeq : b.1 = k := by simpa using hbk
    simp [hbeq]
  · rw [if_neg h]
    have hnone : r.find? (fun p => p.1 == k) = none := by
      rw [List.find?_eq_none]
      intro x hx hc
      exact h (List.any_eq_true.mpr ⟨x, hx, hc⟩)
    rw [List.find?_append, hnone, Option.none_or, List.find?_cons_of_pos _ (by simp)]

/-- Assignment then read of a different key is unchanged. -/
theorem updA_get_other (r : Row) (k k' : String) (v : Value) (hk : k' ≠ k) :
    rowGet (updA r k v) k' = rowGet r k' := by
  unfold updA rowGet
  by_cases h : r.any (fun p => p.1 == k)
  · rw [if_pos h]
    rw [List.find?_map]
    rw [find_congr _ (fun p => p.1 == k') r (by
      intro a
      by_cases ha : a.1 = k
      · simp [Function.comp, ha, show (k == k') = false by simpa using fun hc => hk hc.symm,
          show (a.1 == k') = false by simpa [ha] using fun hc => hk hc.symm]
      · simp [Function.comp, show (a.1 == k) = false by simpa using ha])]
    cases hfind : r.find? (fun p => p.1 == k') with
    | none => simp
    | some b =>
      have hbk := List.find?_some hfind
      have hbk' : b.1 = k' := by simpa using hbk
      have hne : ¬b.1 = k := by
        intro hc
        exact hk (by rw [← hbk', hc])
      simp [hne]
  · rw [if_neg h]
    rw [List.find?_append]
    rw [show List.find? (fun p => p.1 == k') [(k, v)] = none by
      simp [List.find?, show (k == k') = false by simpa using fun hc => hk hc.symm]]
    cases r.find? (fun p => p.1 == k') <;> simp

/-- Object-spread of a duplicate-key-free row over an accumulator: reading a
key of the row gives the row's value, reading any other key falls through
to the accumulator. -/
theorem foldl_updA_get (txn : Row) (k : String) (hnd : (txn.map Prod.fst).Nodup) :
    ∀ acc : Row,
      rowGet (txn.foldl (fun acc e => updA acc e.1 e.2) acc) k =
        if k ∈ txn.map Prod.fst then rowGet txn k else rowGet acc k := by
  induction txn with
  | nil => intro acc; simp
  | cons e rest ih =>
    intro acc
    simp only [List.map_cons, List.nodup_cons] at hnd
    simp only [List.foldl_cons, List.map_cons]
    rw [ih hnd.2 (updA acc e.1 e.2)]
    by_cases he : e.1 = k
    · subst he
      rw [if_neg hnd.1, if_pos (List.mem_cons_self _ _)]
      rw [updA_get_same]
      unfold rowGet
      rw [List.find?_cons_of_pos _ (by simp)]
    · by_cases hk : k ∈ rest.map Prod.fst
      · rw [if_pos hk, if_pos (List.mem_cons_of_mem _ hk)]
        unfold rowGet
        rw [List.find?_cons_of_neg _ (by simpa using he)]
      · rw [if_neg hk, if_neg (by
          intro hm
          rcases List.mem_cons.mp hm with h1 | h1
          · exact he h1.symm
          · exact hk h1)]
        exact updA_get_other acc e.1 k e.2 (Ne.symm he)

/-- A successful keyed lookup returns a member row bearing the key. -/
theorem lookupByKey_mem (rows : List Row) (k : String) (r : Row)
    (h : lookupByKey rows k = some r) : r ∈ rows ∧ jsKey (rowGet r "id") = k := by
  unfold lookupByKey at h
  suffices H : ∀ acc : Option Row,
      rows.foldl (fun acc r => if jsKey (rowGet r "id") == k then some r else acc) acc = some r →
      (r ∈ rows ∧ jsKey (rowGet r "id") = k) ∨ acc = some r by
    rcases H none h with h1 | h1
    · exact h1
    · cases h1
  clear h
  induction rows with
  | nil => intro acc hacc; exact Or.inr hacc
  | cons x rest ih =>
    intro acc hacc
    simp only [List.foldl_cons] at hacc
    rcases ih _ hacc with h1 | h1
    · exact Or.inl ⟨List.mem_cons_of_mem _ h1.1, h1.2⟩
    · by_cases hx : jsKey (rowGet x "id") = k
      · rw [if_pos (by simpa using hx)] at h1
        obtain rfl : x = r := by injection h1
        exact Or.inl ⟨List.mem_cons_self _ _, hx⟩
      · rw [if_neg (by simpa using hx)] at h1
        exact Or.inr h1

/-- The keyed lookup succeeds exactly when some member row bears the key. -/
theorem lookupByKey_isSome (rows : List Row) (k : String) :
    (lookupByKey rows k).isSome = true ↔ ∃ r ∈ rows, jsKey (rowGet r "id") = k := by
  unfold lookupByKey
  suffices H : ∀ acc : Option Row,
      (rows.foldl (fun acc r => if jsKey (rowGet r "id") == k then some r else acc) acc).isSome =
          true ↔
        acc.isSome = true ∨ ∃ r ∈ rows, jsKey (rowGet r "id") = k by
    rw [H none]
    simp
  induction rows with
  | nil => intro acc; simp
  | cons x rest ih =>
    intro acc
    simp only [List.foldl_cons]
    rw [ih ((if jsKey (rowGet x "id") == k then some x else acc))]
    by_cases hx : jsKey (rowGet x "id") = k
    · rw [if_pos (by simpa using hx)]
      simp [hx]
    · rw [if_neg (by simpa using hx)]
      constructor
      · rintro (h1 | h1)
        · exact Or.inl h1
        · exact Or.inr (by
            obtain ⟨r, hr, hkr⟩ := h1
            exact ⟨r, List.mem_cons_of_mem _ hr, hkr⟩)
      · rintro (h1 | h1)
        · exact Or.inl h1
        · obtain ⟨r, hr, hkr⟩ := h1
          rcases List.mem_cons.mp hr with rfl | hr2
          · exact absurd hkr hx
          · exact Or.inr ⟨r, hr2, hkr⟩

/-- A key absent from a row reads as undefined. -/
theorem rowGet_eq_undef_of_not_mem (r : Row) (k : String) (h : k ∉ r.map Prod.fst) :
    rowGet r k = Value.undef := by
  unfold rowGet
  rw [List.find?_eq_none.mpr (by
    intro p hp hc
    exact h (List.mem_map.mpr ⟨p, hp, by simpa using hc⟩))]

/-- The unmatched-id accumulation preserves duplicate-freeness. -/
theorem unmatchedFold_nodup (cards : List Row) (txns : List Row) :
    ∀ acc : List Value, acc.Nodup → (txns.foldl (unmatchedStep cards) acc).Nodup := by
  induction txns with
  | nil => intro acc h; exact h
  | cons t rest ih =>
    intro acc h
    simp only [List.foldl_cons]
    apply ih
    unfold unmatchedStep
    by_cases h1 : (cardLookup cards t).isSome
    · rwa [if_pos h1]
    · rw [if_neg h1]
      by_cases h2 : rowGet t "card_id" ∈ acc
      · rwa [if_pos h2]
      · rw [if_neg h2]
        simpa [List.nodup_append] using ⟨h, h2⟩

/-- Membership in the unmatched-id accumulation: exactly the initial
contents plus the `card_id`s of the card-unmatched transactions. -/
theorem unmatchedFold_mem (cards : List Row) (txns : List Row) (v : Value) :
    ∀ acc : List Value,
      (v ∈ txns.foldl (unmatchedStep cards) acc ↔
        v ∈ acc ∨ ∃ t ∈ txns, cardLookup cards t = none ∧ rowGet t "card_id" = v) := by
  induction txns with
  | nil => intro acc; simp
  | cons t rest ih =>
    intro acc
    simp only [List.foldl_cons]
    rw [ih (unmatchedStep cards acc t)]
    unfold unmatchedStep
    by_cases h1 : (cardLookup cards t).isSome
    · rw [if_pos h1]
      constructor
      · rintro (h2 | h2)
        · exact Or.inl h2
        · exact Or.inr (by
            obtain ⟨t', ht', hrest⟩ := h2
            exact ⟨t', List.mem_cons_of_mem _ ht', hrest⟩)
      · rintro (h2 | h2)
        · exact Or.inl h2
        · obtain ⟨t', ht', hl, hv⟩ := h2
          rcases List.mem_cons.mp ht' with rfl | hmem
          · rw [hl] at h1; cases h1
          · exact Or.inr ⟨t', hmem, hl, hv⟩
    · rw [if_neg h1]
      have hlnone : cardLookup cards t = none := Option.not_isSome_iff_eq_none.mp h1
      by_cases h2 : rowGet t "card_id" ∈ acc
      · rw [if_pos h2]
        constructor
        · rintro (h3 | h3)
          · exact Or.inl h3
          · exact Or.inr (by
              obtain ⟨t', ht', hrest⟩ := h3
              exact ⟨t', List.mem_cons_of_mem _ ht', hrest⟩)
        · rintro (h3 | h3)
          · exact Or.inl h3
          · obtain ⟨t', ht', hl, hv⟩ := h3
            rcases List.mem_cons.mp ht' with rfl | hmem
            · exact Or.inl (hv ▸ h2)
            · exact Or.inr ⟨t', hmem, hl, hv⟩
      · rw [if_neg h2]
        constructor
        · rintro (h3 | h3)
          · rcases List.mem_append.mp h3 with h4 | h4
            · exact Or.inl h4
            · exact Or.inr ⟨t, List.mem_cons_self _ _, hlnone, (List.mem_singleton.mp h4).symm⟩
          · exact Or.inr (by
              obtain ⟨t', ht', hrest⟩ := h3
              exact ⟨t', List.mem_cons_of_mem _ ht', hrest⟩)
        · rintro (h3 | h3)
          · exact Or.inl (List.mem_append.mpr (Or.inl h3))
          · obtain ⟨t', ht', hl, hv⟩ := h3
            rcases List.mem_cons.mp ht' with rfl | hmem
            · exact Or.inl (List.mem_append.mpr (Or.inr (List.mem_singleton.mpr hv.symm)))
            · exact Or.inr ⟨t', hmem, hl, hv⟩

/-- C4: a transaction whose `card_id` matches no card row is still joined:
the joined relation has exactly one row per transaction (the unmatched one
is never dropped and the join never fails), its row carries
`card_program_id` undefined and `card_program_name` `Unknown Program`
while every other original field is preserved, and its `card_id` sits in
the unmatched-id diagnostic set exactly once no matter how many unmatched
transactions share it. -/
theorem c4_join_partial_match (txns cards programs : List Row) (i : ℕ) (txn : Row)
    (htxn : txns[i]? = some txn) (hnd : (txn.map Prod.fst).Nodup)
    (hunmatched : ¬∃ card ∈ cards, jsKey (rowGet card "id") = jsKey (rowGet txn "card_id")) :
    (joinTables txns cards programs).joined.length = txns.length ∧
    (∃ jr, (joinTables txns cards programs).joined[i]? = some jr ∧
      rowGet jr "card_program_id" = Value.undef ∧
      rowGet jr "card_program_name" = Value.str "Unknown Program" ∧
      ∀ k, k ≠ "_id" → k ≠ "card_program_id" → k ≠ "card_program_name" →
        rowGet jr k = rowGet txn k) ∧
    (joinTables txns cards programs).unmatchedCardIds.count (rowGet txn "card_id") = 1 := by
  have hlook : cardLookup cards txn = none := by
    apply Option.not_isSome_iff_eq_none.mp
    intro hs
    obtain ⟨c, hc, hck⟩ := (lookupByKey_isSome cards (jsKey (rowGet txn "card_id"))).mp hs
    exact hunmatched ⟨c, hc, hck⟩
  refine ⟨by simp [joinTables], ⟨joinOne cards programs i txn, ?_, ?_, ?_, ?_⟩, ?_⟩
  · simp only [joinTables]
    rw [List.getElem?_map, List.getElem?_enum, htxn]
    rfl
  · unfold joinOne joinProgramId
    rw [hlook]
    rw [updA_get_other _ _ _ _ (by decide), updA_get_same]
  · unfold joinOne joinProgramId
    rw [hlook, updA_get_same]
    rfl
  · intro k h1 h2 h3
    unfold joinOne joinProgramId
    rw [hlook]
    rw [updA_get_other _ _ _ _ h3, updA_get_other _ _ _ _ h2]
    rw [foldl_updA_get txn k hnd]
    by_cases hmem : k ∈ txn.map Prod.fst
    · rw [if_pos hmem]
    · rw [if_neg hmem, rowGet_eq_undef_of_not_mem _ _ hmem]
      unfold rowGet
      rw [List.find?_cons_of_neg _ (by
        simp only [beq_iff_eq]
        exact fun hc => h1 hc.symm)]
      rfl
  · apply List.count_eq_one_of_mem
    · exact unmatchedFold_nodup cards txns [] List.nodup_nil
    · rw [joinTables]
      exact (unmatchedFold_mem cards txns _ []).mpr
        (Or.inr ⟨txn, List.getElem?_mem htxn, hlook, rfl⟩)

/-- Witness for C4 at a concrete one-transaction table whose `card_id` 2 has
no card. -/
theorem c4_join_partial_match_witness :
    (joinTables [[("_id", Value.num 0), ("card_id", Value.num 2)]]
      [[("_id", Value.num 0), ("id", Value.num 1), ("card_program_id", Value.num 10)]]
      []).joined.length = 1 ∧
    (∃ jr, (joinTables [[("_id", Value.num 0), ("card_id", Value.num 2)]]
      [[("_id", Value.num 0), ("id", Value.num 1), ("card_program_id", Value.num 10)]]
      []).joined[0]? = some jr ∧
      rowGet jr "card_program_id" = Value.undef ∧
      rowGet jr "card_program_name" = Value.str "Unknown Program" ∧
      ∀ k, k ≠ "_id" → k ≠ "card_program_id" → k ≠ "card_program_name" →
        rowGet jr k = rowGet [("_id", Value.num 0), ("card_id", Value.num 2)] k) ∧
    (joinTables [[("_id", Value.num 0), ("card_id", Value.num 2)]]
      [[("_id", Value.num 0), ("id", Value.num 1), ("card_program_id", Value.num 10)]]
      []).unmatchedCardIds.count
        (rowGet [("_id", Value.num 0), ("card_id", Value.num 2)] "card_id") = 1 :=
  c4_join_partial_match _ _ _ 0 _ (by decide) (by decide) (by decide)

/-- A `Program #…` label is never the literal `Unknown Program`. -/
theorem programHash_ne (s : String) : ("Program #" ++ s) ≠ "Unknown Program" := by
  intro h
  have hdata := congrArg String.data h
  simp [String.data_append] at hdata

/-- The fallback name of a present program id is never `Unknown Program`. -/
theorem fallbackName_ne (pid : Value) (hu : pid ≠ Value.undef) (hn : pid ≠ Value.null) :
    fallbackName pid ≠ Value.str "Unknown Program" := by
  unfold fallbackName
  rw [if_pos ⟨hu, hn⟩]
  intro hcontra
  exact programHash_ne (jsToString pid) (by injection hcontra)

/-- The second component of an enumerated pair is a member of the list. -/
theorem snd_mem_of_mem_enum {α : Type} {l : List α} {p : ℕ × α} (h : p ∈ l.enum) :
    p.2 ∈ l := by
  have hm : p.2 ∈ l.enum.map Prod.snd := List.mem_map_of_mem Prod.snd h
  rwa [List.enum_map_snd] at hm

/-- C3 counterexample: the claim promises that full referential integrity
(every transaction's `card_id` has a card, every card's `card_program_id`
has a program) forbids any joined row from being labelled
`Unknown Program`. With a program whose `name` is literally the string
`Unknown Program`, both integrity hypotheses hold and `matchedCards`
equals the transaction count, yet the joined row carries exactly that
label. -/
theorem c3_counterexample :
    (∀ txn ∈ [[("_id", Value.num 0), ("card_id", Value.str "1")]],
      ∃ card ∈ [[("_id", Value.num 0), ("id", Value.str "1"),
                 ("card_program_id", Value.str "10")]],
        jsKey (rowGet card "id") = jsKey (rowGet txn "card_id")) ∧
    (∀ card ∈ [[("_id", Value.num 0), ("id", Value.str "1"),
                ("card_program_id", Value.str "10")]],
      rowGet card "card_program_id" ≠ Value.null ∧
      rowGet card "card_program_id" ≠ Value.undef ∧
      ∃ prog ∈ [[("_id", Value.num 0), ("id", Value.str "10"),
                 ("name", Value.str "Unknown Program")]],
        jsKey (rowGet prog "id") = jsKey (rowGet card "card_program_id")) ∧
    (joinTables [[("_id", Value.num 0), ("card_id", Value.str "1")]]
        [[("_id", Value.num 0), ("id", Value.str "1"), ("card_program_id", Value.str "10")]]
        [[("_id", Value.num 0), ("id", Value.str "10"),
          ("name", Value.str "Unknown Program")]]).matchedCards = 1 ∧
    ¬(∀ jr ∈ (joinTables [[("_id", Value.num 0), ("card_id", Value.str "1")]]
        [[("_id", Value.num 0), ("id", Value.str "1"), ("card_program_id", Value.str "10")]]
        [[("_id", Value.num 0), ("id", Value.str "10"),
          ("name", Value.str "Unknown Program")]]).joined,
      rowGet jr "card_program_name" ≠ Value.str "Unknown Program") := by
  decide

/-- C3 (amended): if every transaction's `card_id` key-matches some cardraw
row, every card's `card_program_id` is present (non-null, non-undefined)
and key-matches some program row, and no program row is itself
display-named or named the literal string `Unknown Program`, then
`matchedCards` equals the number of transactions and no joined row is
labelled `Unknown Program`. -/
theorem c3_join_completeness (txns cards programs : List Row)
    (h1 : ∀ txn ∈ txns, ∃ card ∈ cards,
      jsKey (rowGet card "id") = jsKey (rowGet txn "card_id"))
    (h2 : ∀ card ∈ cards, rowGet card "card_program_id" ≠ Value.null ∧
      rowGet card "card_program_id" ≠ Value.undef ∧
      ∃ prog ∈ programs, jsKey (rowGet prog "id") = jsKey (rowGet card "card_program_id"))
    (h3 : ∀ prog ∈ programs, rowGet prog "display_name" ≠ Value.str "Unknown Program" ∧
      rowGet prog "name" ≠ Value.str "Unknown Program") :
    (joinTables txns cards programs).matchedCards = txns.length ∧
    ∀ jr ∈ (joinTables txns cards programs).joined,
      rowGet jr "card_program_name" ≠ Value.str "Unknown Program" := by
  constructor
  · have hfilter : txns.filter (fun t => (cardLookup cards t).isSome) = txns := by
      rw [List.filter_eq_self]
      intro t ht
      apply (lookupByKey_isSome cards _).mpr
      obtain ⟨c, hc, hck⟩ := h1 t ht
      exact ⟨c, hc, hck⟩
    simp only [joinTables]
    rw [hfilter]
  · intro jr hjr
    simp only [joinTables] at hjr
    obtain ⟨p, hp, rfl⟩ := List.mem_map.mp hjr
    have htxn : p.2 ∈ txns := snd_mem_of_mem_enum hp
    obtain ⟨c0, hc0, hck0⟩ := h1 p.2 htxn
    have hsome : (cardLookup cards p.2).isSome :=
      (lookupByKey_isSome _ _).mpr ⟨c0, hc0, hck0⟩
    obtain ⟨c, hc⟩ := Option.isSome_iff_exists.mp hsome
    have hcmem := (lookupByKey_mem cards _ c hc).1
    obtain ⟨hpid_null, hpid_undef, prog0, hprog0, hpk0⟩ := h2 c hcmem
    unfold joinOne joinProgramId
    rw [hc, updA_get_same]
    by_cases htr : truthy (rowGet c "card_program_id")
    · have hplsome : (lookupByKey programs (jsKey (rowGet c "card_program_id"))).isSome :=
        (lookupByKey_isSome _ _).mpr ⟨prog0, hprog0, hpk0⟩
      obtain ⟨pr, hpr⟩ := Option.isSome_iff_exists.mp hplsome
      have hprmem := (lookupByKey_mem programs _ pr hpr).1
      unfold joinProgramName programLookup
      rw [if_pos htr, hpr]
      dsimp only
      by_cases hdn : (truthy (rowGet pr "display_name") || truthy (rowGet pr "name")) = true
      · rw [if_pos hdn]
        by_cases hd : truthy (rowGet pr "display_name") = true
        · rw [if_pos hd]; exact (h3 pr hprmem).1
        · rw [if_neg hd]; exact (h3 pr hprmem).2
      · rw [if_neg hdn]
        exact fallbackName_ne _ hpid_undef hpid_null
    · unfold joinProgramName programLookup
      rw [if_neg htr]
      exact fallbackName_ne _ hpid_undef hpid_null

/-- Witness for C3 (amended) at a concrete fully-matching three-table
collection. -/
theorem c3_join_completeness_witness :
    (joinTables [[("_id", Value.num 0), ("card_id", Value.str "1")]]
        [[("_id", Value.num 0), ("id", Value.str "1"), ("card_program_id", Value.str "10")]]
        [[("_id", Value.num 0), ("id", Value.str "10"),
          ("name", Value.str "Travel")]]).matchedCards = 1 ∧
    ∀ jr ∈ (joinTables [[("_id", Value.num 0), ("card_id", Value.str "1")]]
        [[("_id", Value.num 0), ("id", Value.str "1"), ("card_program_id", Value.str "10")]]
        [[("_id", Value.num 0), ("id", Value.str "10"),
          ("name", Value.str "Travel")]]).joined,
      rowGet jr "card_program_name" ≠ Value.str "Unknown Program" :=
  c3_join_completeness _ _ _ (by decide) (by decide) (by decide)

/-! ### Grouping lemmas -/

/-- Stable insertion produces a permutation. -/
theorem insertCmp_perm {α : Type} (cmp : α → α → Int) (x : α) (l : List α) :
    (insertCmp cmp x l).Perm (x :: l) := by
  induction l with
  | nil => exact List.Perm.refl _
  | cons y ys ih =>
    unfold insertCmp
    by_cases h : cmp x y < 0
    · rw [if_pos h]
    · rw [if_neg h]
      exact (ih.cons y).trans (List.Perm.swap x y ys)

/-- The comparator sort produces a permutation of its input. -/
theorem sortWithCmp_perm {α : Type} (cmp : α → α → Int) (l : List α) :
    (sortWithCmp cmp l).Perm l := by
  unfold sortWithCmp
  suffices H : ∀ acc : List α,
      (l.foldl (fun acc x => insertCmp cmp x acc) acc).Perm (acc ++ l) by
    simpa using H []
  induction l with
  | nil => intro acc; simp
  | cons x rest ih =>
    intro acc
    simp only [List.foldl_cons]
    refine (ih (insertCmp cmp x acc)).trans ?_
    have h1 : (insertCmp cmp x acc ++ rest).Perm ((x :: acc) ++ rest) :=
      (insertCmp_perm cmp x acc).append_right rest
    refine h1.trans ?_
    simp only [List.cons_append]
    exact (List.perm_middle).symm

/-- A key not in the breakdown is untouched by the bucket update. -/
theorem bd_update_absent (bd : List (String × BDEntry)) (k : String)
    (f : BDEntry → BDEntry) (h : k ∉ bd.map Prod.fst) :
    bd.map (fun p => if p.1 == k then (p.1, f p.2) else p) = bd := by
  induction bd with
  | nil => rfl
  | cons e rest ih =>
    simp only [List.map_cons, List.mem_cons, not_or] at h
    simp only [List.map_cons]
    rw [if_neg (show ¬(e.1 == k) = true by simpa using fun hc => h.1 hc.symm)]
    rw [ih h.2]

/-- Keys are unchanged by the bucket update. -/
theorem bd_update_keys (bd : List (String × BDEntry)) (k : String) (f : BDEntry → BDEntry) :
    (bd.map (fun p => if p.1 == k then (p.1, f p.2) else p)).map Prod.fst = bd.map Prod.fst := by
  induction bd with
  | nil => rfl
  | cons e rest ih =>
    simp only [List.map_cons]
    by_cases h : e.1 == k
    · rw [if_pos h]; simpa using ih
    · rw [if_neg h]; simpa using ih

/-- Updating the unique bucket with key `k` changes a projected sum by the
update's effect on that bucket. -/
theorem bd_update_sum {M : Type} [AddCommMonoid M] (g : BDEntry → M) (d : M)
    (f : BDEntry → BDEntry) (hf : ∀ e, g (f e) = g e + d)
    (bd : List (String × BDEntry)) (k : String) (hnd : (bd.map Prod.fst).Nodup)
    (hmem : k ∈ bd.map Prod.fst) :
    ((bd.map (fun p => if p.1 == k then (p.1, f p.2) else p)).map (fun p => g p.2)).sum =
      ((bd.map (fun p => g p.2)).sum + d) := by
  induction bd with
  | nil => cases hmem
  | cons e rest ih =>
    simp only [List.map_cons, List.nodup_cons] at hnd ⊢
    rcases List.mem_cons.mp hmem with h1 | h1
    · rw [if_pos (by simpa using h1.symm)]
      rw [bd_update_absent rest k f (h1 ▸ hnd.1)]
      simp only [List.sum_cons]
      rw [hf e.2]
      abel
    · by_cases he : e.1 = k
      · exact absurd (he ▸ h1) hnd.1
      · rw [if_neg (by simpa using he)]
        simp only [List.sum_cons]
        rw [ih hnd.2 h1]
        abel

/-- A present key is exactly a successful association lookup. -/
theorem lookupA_isSome {α : Type} (l : List (String × α)) (k : String) :
    (lookupA l k).isSome = true ↔ k ∈ l.map Prod.fst := by
  unfold lookupA
  rw [show (Option.map Prod.snd (l.find? (fun p => p.1 == k))).isSome =
      (l.find? (fun p => p.1 == k)).isSome from by
    cases l.find? (fun p => p.1 == k) <;> rfl]
  rw [List.find?_isSome]
  constructor
  · rintro ⟨p, hp, hpk⟩
    exact List.mem_map.mpr ⟨p, hp, by simpa using hpk⟩
  · intro h
    obtain ⟨p, hp, hpk⟩ := List.mem_map.mp h
    exact ⟨p, hp, by simpa using hpk⟩

/-- The grouping fold: keys stay duplicate-free, the counts sum to the
number of truthy-keyed rows consumed, and the values sum to the total of
the per-row contributions over those rows. -/
theorem bd_fold_invariant (catCol : String) (detAmount detQty : Option String)
    (calcColumns : List CalcCol) (rows : List Row) :
    ∀ bd : List (String × BDEntry), (bd.map Prod.fst).Nodup →
      (((rows.foldl (bdStep catCol detAmount detQty calcColumns) bd).map Prod.fst).Nodup ∧
      ((rows.foldl (bdStep catCol detAmount detQty calcColumns) bd).map
          (fun p => p.2.count)).sum =
        ((bd.map (fun p => p.2.count)).sum +
          (rows.filter (fun r => truthy (rowGet r catCol))).length) ∧
      ((rows.foldl (bdStep catCol detAmount detQty calcColumns) bd).map
          (fun p => p.2.value)).sum =
        ((bd.map (fun p => p.2.value)).sum +
          ((rows.filter (fun r => truthy (rowGet r catCol))).map
            (fun r => bdValueContribution detAmount detQty calcColumns r)).sum)) := by
  induction rows with
  | nil => intro bd hnd; simp [hnd]
  | cons row rest ih =>
    intro bd hnd
    simp only [List.foldl_cons]
    by_cases htr : truthy (rowGet row catCol)
    · have hstep_keys : ((bdStep catCol detAmount detQty calcColumns bd row).map Prod.fst).Nodup ∧
          ((bdStep catCol detAmount detQty calcColumns bd row).map (fun p => p.2.count)).sum =
            (bd.map (fun p => p.2.count)).sum + 1 ∧
          ((bdStep catCol detAmount detQty calcColumns bd row).map (fun p => p.2.value)).sum =
            (bd.map (fun p => p.2.value)).sum +
              bdValueContribution detAmount detQty calcColumns row := by
        unfold bdStep
        rw [if_neg (by simp [htr])]
        dsimp only
        by_cases hk : (lookupA bd (jsToString (rowGet row catCol))).isSome
        · rw [if_pos hk]
          have hmem := (lookupA_isSome _ _).mp hk
          refine ⟨?_, ?_, ?_⟩
          · rw [bd_update_keys]; exact hnd
          · exact bd_update_sum (fun e => e.count) 1 _ (fun e => rfl) bd _ hnd hmem
          · exact bd_update_sum (fun e => e.value)
              (bdValueContribution detAmount detQty calcColumns row) _ (fun e => rfl)
              bd _ hnd hmem
        · rw [if_neg hk]
          have hnotmem : jsToString (rowGet row catCol) ∉ bd.map Prod.fst := by
            intro hc
            exact hk ((lookupA_isSome _ _).mpr hc)
          have hnd' : ((bd ++ [(jsToString (rowGet row catCol),
              freshBDEntry (rowGet row catCol))]).map Prod.fst).Nodup := by
            rw [List.map_append]
            refine List.Nodup.append hnd (by simp) ?_
            intro a ha hb
            simp only [List.map_cons, List.map_nil, List.mem_singleton] at hb
            subst hb
            exact hnotmem ha
          have hmem' : jsToString (rowGet row catCol) ∈
              ((bd ++ [(jsToString (rowGet row catCol),
              freshBDEntry (rowGet row catCol))]).map Prod.fst) := by
            simp
          refine ⟨?_, ?_, ?_⟩
          · rw [bd_update_keys]
            exact hnd'
          · rw [bd_update_sum (fun e => e.count) 1 _ (fun e => rfl) _ _ hnd' hmem']
            simp [freshBDEntry]
          · rw [bd_update_sum (fun e => e.value)
              (bdValueContribution detAmount detQty calcColumns row) _ (fun e => rfl)
              _ _ hnd' hmem']
            simp [freshBDEntry]
      obtain ⟨hknd, hkc, hkv⟩ := hstep_keys
      obtain ⟨ind, ic, iv⟩ := ih _ hknd
      refine ⟨ind, ?_, ?_⟩
      · rw [ic, hkc]
        simp only [List.filter_cons, if_pos htr]
        simp only [List.length_cons]
        ring
      · rw [iv, hkv]
        simp only [List.filter_cons, if_pos htr]
        simp only [List.map_cons, List.sum_cons]
        ring
    · have htrf : truthy (rowGet row catCol) = false := by
        revert htr
        cases truthy (rowGet row catCol) <;> simp
      have hstep : bdStep catCol detAmount detQty calcColumns bd row = bd := by
        unfold bdStep
        rw [if_pos (by simp [htrf])]
      rw [hstep]
      obtain ⟨ind, ic, iv⟩ := ih bd hnd
      refine ⟨ind, ?_, ?_⟩
      · rw [ic]
        simp only [List.filter_cons, if_neg htr]
      · rw [iv]
        simp only [List.filter_cons, if_neg htr]

/-- C5 counterexample: the claim says the per-group counts always sum to
the number of rows entering the group step. A row whose group-key cell is
null is silently skipped (App.jsx 828), so one null-keyed row gives total
count 0, not 1; and a positive top-N truncates groups away (App.jsx 852),
so two distinct groups under top-N 1 give total count 1, not 2. -/
theorem c5_counterexample :
    ((categoryBreakdown "g" none none (some "amt") none [] AggType.sum 0
        [[("g", Value.null), ("amt", Value.num 5)]]).map BDEntry.count).sum ≠
      [[("g", Value.null), ("amt", Value.num 5)]].length ∧
    ((categoryBreakdown "g" none none none none [] AggType.count 1
        [[("g", Value.str "a")], [("g", Value.str "b")]]).map BDEntry.count).sum ≠
      [[("g", Value.str "a")], [("g", Value.str "b")]].length := by
  decide

/-- C5 (amended): for an untruncated grouping (top-N not positive) with no
active `ext_total` calculated column and a detected amount column, the
per-group counts sum to the number of filtered rows whose group-key cell
is truthy (falsy-keyed rows are skipped), and the per-group values sum to
the amount-role total over those same truthy-keyed rows. -/
theorem c5_grouping_totals (catCol : String) (hcat : catCol ≠ "")
    (detCategory detAccount detQty : Option String) (amtCol : String)
    (calcColumns : List CalcCol)
    (hext : calcColumns.find? (fun c => c.name == "ext_total") = none)
    (aggregationType : AggType) (topN : ℤ) (htop : ¬topN > 0) (rows : List Row) :
    ((categoryBreakdown catCol detCategory detAccount (some amtCol) detQty calcColumns
        aggregationType topN rows).map BDEntry.count).sum =
      (rows.filter (fun r => truthy (rowGet r catCol))).length ∧
    ((categoryBreakdown catCol detCategory detAccount (some amtCol) detQty calcColumns
        aggregationType topN rows).map BDEntry.value).sum =
      ((rows.filter (fun r => truthy (rowGet r catCol))).map
        (fun r => toNumF (rowGet r amtCol))).sum := by
  have hcontrib : ∀ row : Row,
      bdValueContribution (some amtCol) detQty calcColumns row = toNumF (rowGet row amtCol) := by
    intro row
    unfold bdValueContribution
    rw [hext]
  unfold categoryBreakdown
  rw [if_pos hcat]
  dsimp only
  rw [if_neg htop]
  obtain ⟨hnd, hc, hv⟩ :=
    bd_fold_invariant catCol (some amtCol) detQty calcColumns rows [] (by simp)
  have hperm :
      (sortWithCmp
        (fun a b =>
          if (if aggregationType = AggType.count then (fun e => (e.count : ℚ))
              else (fun e => e.value)) b <
              (if aggregationType = AggType.count then (fun e => (e.count : ℚ))
              else (fun e => e.value)) a then -1
          else if (if aggregationType = AggType.count then (fun e => (e.count : ℚ))
              else (fun e => e.value)) a <
              (if aggregationType = AggType.count then (fun e => (e.count : ℚ))
              else (fun e => e.value)) b then 1
          else 0)
        ((rows.foldl (bdStep catCol (some amtCol) detQty calcColumns) []).map Prod.snd)).Perm
      ((rows.foldl (bdStep catCol (some amtCol) detQty calcColumns) []).map Prod.snd) :=
    sortWithCmp_perm _ _
  constructor
  · rw [(hperm.map BDEntry.count).sum_eq]
    rw [List.map_map]
    simpa using hc
  · rw [(hperm.map BDEntry.value).sum_eq]
    rw [List.map_map]
    have hv' := hv
    rw [show (rows.filter (fun r => truthy (rowGet r catCol))).map
        (fun r => bdValueContribution (some amtCol) detQty calcColumns r) =
        (rows.filter (fun r => truthy (rowGet r catCol))).map
          (fun r => toNumF (rowGet r amtCol)) from
      List.map_congr_left (fun r _ => hcontrib r)] at hv'
    simpa using hv'

/-- Witness for C5 (amended) at a concrete two-group table. -/
theorem c5_grouping_totals_witness :
    ((categoryBreakdown "g" none none (some "amt") none [] AggType.sum 0
        [[("g", Value.str "a"), ("amt", Value.num 5)],
         [("g", Value.null), ("amt", Value.num 7)],
         [("g", Value.str "b"), ("amt", Value.num 3)],
         [("g", Value.str "a"), ("amt", Value.num 2)]]).map BDEntry.count).sum =
      ([[("g", Value.str "a"), ("amt", Value.num 5)],
        [("g", Value.null), ("amt", Value.num 7)],
        [("g", Value.str "b"), ("amt", Value.num 3)],
        [("g", Value.str "a"), ("amt", Value.num 2)]].filter
          (fun r => truthy (rowGet r "g"))).length ∧
    ((categoryBreakdown "g" none none (some "amt") none [] AggType.sum 0
        [[("g", Value.str "a"), ("amt", Value.num 5)],
         [("g", Value.null), ("amt", Value.num 7)],
         [("g", Value.str "b"), ("amt", Value.num 3)],
         [("g", Value.str "a"), ("amt", Value.num 2)]]).map BDEntry.value).sum =
      (([[("g", Value.str "a"), ("amt", Value.num 5)],
         [("g", Value.null), ("amt", Value.num 7)],
         [("g", Value.str "b"), ("amt", Value.num 3)],
         [("g", Value.str "a"), ("amt", Value.num 2)]].filter
          (fun r => truthy (rowGet r "g"))).map
        (fun r => toNumF (rowGet r "amt"))).sum :=
  c5_grouping_totals "g" (by decide) none none none "amt" [] (by decide) AggType.sum 0
    (by decide) _

/-- C6 counterexample: the claim says every sort of the engine uses one
comparison rule — case-insensitive on strings, null/undefined always
last. The pipeline comparator orders the strings `a` and `B`
case-sensitively (`B` before `a` ascending) while the summary comparator
orders them case-insensitively (`a` before `B`), so the two rules differ;
and the summary sort leaves a null before a string (it compares them
equal and the stable sort keeps their order), so nulls are not always
last. -/
theorem c6_counterexample :
    cmpFiltered SortDir.asc (Value.str "a") (Value.str "B") = 1 ∧
    cmpSummary SortDir.asc (Value.str "a") (Value.str "B") = -1 ∧
    sortSummaries "k" SortDir.asc [[("k", Value.null)], [("k", Value.str "a")]] =
      [[("k", Value.null)], [("k", Value.str "a")]] := by
  decide

/-- C6 (amended): the query-pipeline comparator places null/undefined last
in both directions but compares the remaining values (strings included)
with the raw case-sensitive JavaScript ordering, while the card/program
summary comparator lower-cases strings before comparing but has no
null/undefined rule at all: it reports a null tied with every string that
does not convert to a number, so the stable sort leaves such nulls in
place instead of moving them last. -/
theorem c6_sort_rules :
    (∀ (dir : SortDir) (v : Value),
      cmpFiltered dir Value.null v = 1 ∧ cmpFiltered dir Value.undef v = 1) ∧
    (∀ (dir : SortDir) (v : Value), v ≠ Value.null → v ≠ Value.undef →
      cmpFiltered dir v Value.null = -1 ∧ cmpFiltered dir v Value.undef = -1) ∧
    (∀ (dir : SortDir) (s t s' t' : String), strToLower s = strToLower s' →
      strToLower t = strToLower t' →
      cmpSummary dir (Value.str s) (Value.str t) =
        cmpSummary dir (Value.str s') (Value.str t')) ∧
    (∀ (dir : SortDir) (s : String), jsFiniteNumber (strToLower s).toList = none →
      cmpSummary dir Value.null (Value.str s) = 0 ∧
      cmpSummary dir (Value.str s) Value.null = 0) := by
  refine ⟨?_, ?_, ?_, ?_⟩
  · intro dir v
    constructor <;> rfl
  · intro dir v hn hu
    constructor <;>
      · unfold cmpFiltered
        rw [if_neg (by simp [hn, hu]), if_pos (by simp)]
  · intro dir s t s' t' hs ht
    unfold cmpSummary lowerIfStr
    dsimp only
    rw [hs, ht]
  · intro dir s hnan
    have hnan' : jsFiniteNumber (strToLower s).data = none := hnan
    constructor <;>
      · unfold cmpSummary lowerIfStr jsLt
        simp [jsToNumber, hnan']

/-- Witness for C6 (amended) at concrete values and strings. -/
theorem c6_sort_rules_witness :
    cmpFiltered SortDir.desc (Value.str "x") Value.null = -1 ∧
    cmpSummary SortDir.asc (Value.str "Abc") (Value.str "aBd") =
      cmpSummary SortDir.asc (Value.str "abc") (Value.str "abd") ∧
    cmpSummary SortDir.desc Value.null (Value.str "abc") = 0 :=
  ⟨(c6_sort_rules.2.1 SortDir.desc (Value.str "x") (by decide) (by decide)).1,
   c6_sort_rules.2.2.1 SortDir.asc "Abc" "aBd" "abc" "abd" (by decide) (by decide),
   (c6_sort_rules.2.2.2 SortDir.desc "abc" (by decide)).1⟩

/-! ### Extraction lemmas for well-formed CREATE/INSERT statements -/

/-- Inside a group, a closing parenthesis after paren-free content emits the
accumulated content (when non-empty) and resumes the outer scan. -/
theorem extractTuplesAux_content (content : List Char) (h : ∀ c ∈ content, c ≠ ')') :
    ∀ (rest acc : List Char),
      extractTuplesAux (content ++ ')' :: rest) (some acc) =
        (if (acc ++ content).isEmpty then extractTuplesAux rest none
         else (acc ++ content) :: extractTuplesAux rest none) := by
  induction content with
  | nil =>
    intro rest acc
    simp only [List.nil_append, List.append_nil]
    rw [extractTuplesAux]
    rw [if_pos rfl]
  | cons c cs ih =>
    intro rest acc
    have hc : c ≠ ')' := h c (List.mem_cons_self _ _)
    simp only [List.cons_append]
    rw [extractTuplesAux]
    rw [if_neg hc]
    rw [ih (fun d hd => h d (List.mem_cons_of_mem _ hd)) rest (acc ++ [c])]
    rw [List.append_assoc, List.singleton_append]

/-- Outside a group, a non-`(` character is skipped. -/
theorem extractTuplesAux_skip (c : Char) (l : List Char) (h : c ≠ '(') :
    extractTuplesAux (c :: l) none = extractTuplesAux l none := by
  rw [extractTuplesAux]
  rw [if_neg h]

/-- Outside a group, `(` opens a group. -/
theorem extractTuplesAux_open (l : List Char) :
    extractTuplesAux ('(' :: l) none = extractTuplesAux l (some []) := by
  rw [extractTuplesAux]
  rw [if_pos rfl]

/-- The characters of a joined field list are the fields' characters plus
commas and blanks. -/
theorem joinFields_chars (fs : List (List Char)) (c : Char) (hc : c ∈ joinFields fs) :
    c = ',' ∨ c = ' ' ∨ ∃ f ∈ fs, c ∈ f := by
  induction fs with
  | nil => cases hc
  | cons f rest ih =>
    cases rest with
    | nil =>
      exact Or.inr (Or.inr ⟨f, List.mem_singleton.mpr rfl, hc⟩)
    | cons g gs =>
      rw [show joinFields (f :: g :: gs) = f ++ ',' :: ' ' :: joinFields (g :: gs) from rfl]
        at hc
      rcases List.mem_append.mp hc with h1 | h1
      · exact Or.inr (Or.inr ⟨f, List.mem_cons_self _ _, h1⟩)
      · rcases List.mem_cons.mp h1 with rfl | h2
        · exact Or.inl rfl
        · rcases List.mem_cons.mp h2 with rfl | h3
          · exact Or.inr (Or.inl rfl)
          · rcases ih h3 with h4 | h4 | ⟨f', hf', hcf'⟩
            · exact Or.inl h4
            · exact Or.inr (Or.inl h4)
            · exact Or.inr (Or.inr ⟨f', List.mem_cons_of_mem _ hf', hcf'⟩)

/-- A non-empty field list with a non-empty first field joins to a
non-empty character list. -/
theorem joinFields_ne_nil (f : List Char) (fs : List (List Char)) (hf : f ≠ []) :
    joinFields (f :: fs) ≠ [] := by
  cases fs with
  | nil => exact hf
  | cons g gs =>
    rw [show joinFields (f :: g :: gs) = f ++ ',' :: ' ' :: joinFields (g :: gs) from rfl]
    simp

/-- The tuple scan recovers exactly the rendered tuples' contents from a
well-formed VALUES region: each tuple non-empty with non-empty,
parenthesis-free fields. -/
theorem extractTuples_renderBlock (tuples : List (List String))
    (hfields : ∀ tup ∈ tuples, tup ≠ [] ∧ ∀ f ∈ tup, f.toList ≠ [] ∧ ')' ∉ f.toList) :
    extractTuples (renderBlock tuples) = tuples.map (fun t => joinFields (t.map String.toList)) := by
  induction tuples with
  | nil => rfl
  | cons t ts ih =>
    obtain ⟨htne, htf⟩ := hfields t (List.mem_cons_self _ _)
    have hcontent_ne : joinFields (t.map String.toList) ≠ [] := by
      cases t with
      | nil => exact absurd rfl htne
      | cons f fs =>
        exact joinFields_ne_nil _ _ ((htf f (List.mem_cons_self _ _)).1)
    have hcontent_noparen : ∀ c ∈ joinFields (t.map String.toList), c ≠ ')' := by
      intro c hc
      rcases joinFields_chars _ c hc with rfl | rfl | ⟨f', hf', hcf'⟩
      · decide
      · decide
      · obtain ⟨f0, hf0, rfl⟩ := List.mem_map.mp hf'
        intro hcp
        exact (htf f0 hf0).2 (hcp ▸ hcf')
    cases ts with
    | nil =>
      show extractTuplesAux (renderTuple t) none = _
      unfold renderTuple
      rw [extractTuplesAux_open]
      rw [show joinFields (t.map String.toList) ++ [')'] =
        joinFields (t.map String.toList) ++ ')' :: [] from rfl]
      rw [extractTuplesAux_content _ hcontent_noparen [] []]
      rw [List.nil_append]
      rw [if_neg (by simpa using hcontent_ne)]
      rfl
    | cons t2 ts2 =>
      show extractTuplesAux (renderTuple t ++ ',' :: ' ' :: renderBlock (t2 :: ts2)) none = _
      unfold renderTuple
      rw [show ('(' :: (joinFields (t.map String.toList) ++ [')'])) ++
          ',' :: ' ' :: renderBlock (t2 :: ts2) =
          '(' :: (joinFields (t.map String.toList) ++
            ')' :: (',' :: ' ' :: renderBlock (t2 :: ts2))) from by simp]
      rw [extractTuplesAux_open]
      rw [extractTuplesAux_content _ hcontent_noparen _ []]
      rw [List.nil_append]
      rw [if_neg (by simpa using hcontent_ne)]
      rw [extractTuplesAux_skip _ _ (by decide), extractTuplesAux_skip _ _ (by decide)]
      rw [show extractTuplesAux (renderBlock (t2 :: ts2)) none =
        extractTuples (renderBlock (t2 :: ts2)) from rfl]
      rw [ih (fun tup htup => hfields tup (List.mem_cons_of_mem _ htup))]
      rfl

/-- The keys of a tuple row are `_id` followed by the columns. -/
theorem tupleRow_keys (cols : List String) (idx : ℕ) (cleanedValues : List Value) :
    (tupleRow cols idx cleanedValues).map Prod.fst = "_id" :: cols := by
  unfold tupleRow
  simp only [List.map_cons]
  congr 1
  rw [List.map_map]
  have : (Prod.fst ∘ fun p : ℕ × String => (p.2, cleanedValues.getD p.1 Value.null)) =
      fun p : ℕ × String => p.2 := rfl
  rw [this, List.enum_map_snd]

theorem processTuples_spec (tuples : List (List Char)) (cols0 : List String)
    (hcols : cols0 ≠ []) :
    (processTuples cols0 tuples).1 = cols0 ∧
    (processTuples cols0 tuples).2.length = tuples.length ∧
    ∀ row ∈ (processTuples cols0 tuples).2, row.map Prod.fst = "_id" :: cols0 := by
  unfold processTuples
  suffices H : ∀ rows0 : List Row,
      (tuples.foldl processTuplesStep (cols0, rows0)).1 = cols0 ∧
      (tuples.foldl processTuplesStep (cols0, rows0)).2.length =
        rows0.length + tuples.length ∧
      ∀ row ∈ (tuples.foldl processTuplesStep (cols0, rows0)).2,
        row ∈ rows0 ∨ row.map Prod.fst = "_id" :: cols0 by
    obtain ⟨h1, h2, h3⟩ := H []
    refine ⟨h1, by simpa using h2, ?_⟩
    intro row hrow
    rcases h3 row hrow with h4 | h4
    · cases h4
    · exact h4
  induction tuples with
  | nil => intro rows0; exact ⟨rfl, by simp, fun row hrow => Or.inl hrow⟩
  | cons tp rest ih =>
    intro rows0
    simp only [List.foldl_cons]
    have hstep : processTuplesStep (cols0, rows0) tp =
        (cols0, rows0 ++ [tupleRow cols0 rows0.length ((splitTuple tp).map cleanValue)]) := by
      unfold processTuplesStep
      dsimp only
      rw [if_neg (show ¬cols0.isEmpty = true by simpa using hcols)]
    rw [hstep]
    obtain ⟨h1, h2, h3⟩ :=
      ih (rows0 ++ [tupleRow cols0 rows0.length ((splitTuple tp).map cleanValue)])
    refine ⟨h1, ?_, ?_⟩
    · rw [h2]
      simp only [List.length_append, List.length_cons, List.length_nil]
      omega
    · intro row hrow
      rcases h3 row hrow with h4 | h4
      · rcases List.mem_append.mp h4 with h5 | h5
        · exact Or.inl h5
        · exact Or.inr (by rw [List.mem_singleton.mp h5]; exact tupleRow_keys _ _ _)
      · exact Or.inr h4

/-- Re-indexing a row rewrites only the `_id` value; the key order is
untouched. -/
theorem reindex_row_keys (r : Row) (i : ℕ) :
    (r.map (fun e => if e.1 == "_id" then ("_id", Value.num (i : ℚ)) else e)).map Prod.fst =
      r.map Prod.fst := by
  rw [List.map_map]
  apply List.map_congr_left
  intro e _
  by_cases he : e.1 = "_id"
  · simp [Function.comp, he]
  · simp [Function.comp, show (e.1 == "_id") = false by simpa using he]

/-- C1: for a well-formed script consisting of a CREATE TABLE for `t` with
a non-empty recognised column list followed by an INSERT INTO `t` whose
VALUES region renders a non-empty list of well-formed tuples (each
non-empty, fields non-empty and free of closing parentheses), the
extractor produces table `t` with exactly one row per value-tuple, and
every row's column order is `_id` followed by the declared columns in
declaration order. -/
theorem c1_create_insert_extraction (t : String) (defs : List String) (hdefs : defs ≠ [])
    (tuples : List (List String)) (htuples : tuples ≠ [])
    (hfields : ∀ tup ∈ tuples, tup ≠ [] ∧ ∀ f ∈ tup, f.toList ≠ [] ∧ ')' ∉ f.toList) :
    ∃ rows, lookupA (parseSQL [SqlStmt.create t defs,
        SqlStmt.insert t none (renderBlock tuples)]) (strToLower t) = some rows ∧
      rows.length = tuples.length ∧
      ∀ row ∈ rows, row.map Prod.fst = "_id" :: defs := by
  have hschemas : collectSchemas [SqlStmt.create t defs,
      SqlStmt.insert t none (renderBlock tuples)] = [(strToLower t, defs)] := by
    unfold collectSchemas
    simp only [List.foldl_cons, List.foldl_nil]
    rw [if_neg (by simpa using hdefs)]
    unfold updA
    simp
  obtain ⟨hc1, hc2, hc3⟩ := processTuples_spec (extractTuples (renderBlock tuples)) defs hdefs
  have hlen : (processTuples defs (extractTuples (renderBlock tuples))).2.length =
      tuples.length := by
    rw [hc2, extractTuples_renderBlock tuples hfields, List.length_map]
  have hne : ((processTuples defs (extractTuples (renderBlock tuples))).2.isEmpty) = false := by
    rw [List.isEmpty_eq_false_iff_exists_mem]
    have : 0 < (processTuples defs (extractTuples (renderBlock tuples))).2.length := by
      rw [hlen]
      exact List.length_pos.mpr htuples
    exact List.exists_mem_of_length_pos this
  have hins : collectInserts [(strToLower t, defs)] [SqlStmt.create t defs,
      SqlStmt.insert t none (renderBlock tuples)] =
      [(strToLower t, processTuples defs (extractTuples (renderBlock tuples)))] := by
    unfold collectInserts
    simp only [List.foldl_cons, List.foldl_nil]
    have hlook : lookupA [(strToLower t, defs)] (strToLower t) = some defs := by
      unfold lookupA
      rw [List.find?_cons_of_pos _ (by simp)]
      rfl
    rw [hlook]
    simp only [Option.getD_some]
    rw [hne]
    simp only [Bool.false_eq_true, if_false]
    simp [lookupA]
  unfold parseSQL
  rw [hschemas, hins]
  refine ⟨reindexRows (processTuples defs (extractTuples (renderBlock tuples))).2, ?_, ?_, ?_⟩
  · unfold lookupA
    rw [List.map_cons, List.map_nil, List.find?_cons_of_pos _ (by simp)]
    rfl
  · unfold reindexRows
    rw [List.length_map, List.enum_length]
    exact hlen
  · intro row hrow
    unfold reindexRows at hrow
    obtain ⟨p, hp, rfl⟩ := List.mem_map.mp hrow
    rw [reindex_row_keys]
    exact hc3 p.2 (snd_mem_of_mem_enum hp)

/-- Witness for C1 at a concrete two-column, two-tuple script. -/
theorem c1_create_insert_extraction_witness :
    ∃ rows, lookupA (parseSQL [SqlStmt.create "T" ["id", "amount"],
        SqlStmt.insert "T" none (renderBlock [["1", "2.5"], ["2", "NULL"]])])
        (strToLower "T") = some rows ∧
      rows.length = [["1", "2.5"], ["2", "NULL"]].length ∧
      ∀ row ∈ rows, row.map Prod.fst = "_id" :: ["id", "amount"] :=
  c1_create_insert_extraction "T" ["id", "amount"] (by decide) [["1", "2.5"], ["2", "NULL"]]
    (by decide) (by decide)

/-! ### Decimal rendering and parsing lemmas for the export round-trip -/

/-- With enough fuel, the fuel-driven digit extraction is `Nat.digits`. -/
theorem digitsFuel_eq (fuel : ℕ) : ∀ n : ℕ, n ≤ fuel → digitsFuel fuel n = Nat.digits 10 n := by
  induction fuel with
  | zero =>
    intro n hn
    interval_cases n
    simp [digitsFuel]
  | succ fuel ih =>
    intro n hn
    unfold digitsFuel
    by_cases hz : n = 0
    · subst hz; simp
    · rw [if_neg hz]
      rw [ih (n / 10) (by
        have := Nat.div_lt_self (Nat.pos_of_ne_zero hz) (by norm_num : 1 < 10)
        omega)]
      rw [Nat.digits_def' (by norm_num : 1 < 10) (Nat.pos_of_ne_zero hz)]

/-- The fuel-driven digits agree with `Nat.digits`. -/
theorem myDigits_eq (n : ℕ) : myDigits n = Nat.digits 10 n :=
  digitsFuel_eq n n le_rfl

/-- A digit below ten maps to a digit character. -/
theorem digitToChar_isDigit (d : ℕ) (h : d < 10) : (digitToChar d).isDigit = true := by
  interval_cases d <;> decide

/-- Reading back the character of a digit below ten. -/
theorem digitVal_digitToChar (d : ℕ) (h : d < 10) : digitVal (digitToChar d) = d := by
  interval_cases d <;> decide

/-- Digit characters are never whitespace. -/
theorem digitToChar_not_ws (d : ℕ) (h : d < 10) : isWS (digitToChar d) = false := by
  interval_cases d <;> decide

/-- Folding the digit-reading step over a reversed digit-character list
computes the little-endian value, shifted under the accumulator. -/
theorem foldl_digits (L : List ℕ) (h : ∀ d ∈ L, d < 10) :
    ∀ acc : ℕ,
      ((L.map digitToChar).reverse.foldl (fun a c => 10 * a + digitVal c) acc) =
        acc * 10 ^ L.length + Nat.ofDigits 10 L := by
  induction L with
  | nil => intro acc; simp [Nat.ofDigits]
  | cons d T ih =>
    intro acc
    simp only [List.map_cons, List.reverse_cons, List.foldl_append, List.foldl_cons,
      List.foldl_nil]
    rw [ih (fun x hx => h x (List.mem_cons_of_mem _ hx)) acc]
    rw [digitVal_digitToChar d (h d (List.mem_cons_self _ _))]
    rw [Nat.ofDigits_cons]
    simp only [List.length_cons]
    ring

/-- Reading back a reversed digit-character list. -/
theorem parseNat_rev_map (L : List ℕ) (h : ∀ d ∈ L, d < 10) :
    parseNatChars ((L.map digitToChar).reverse) = Nat.ofDigits 10 L := by
  unfold parseNatChars
  rw [foldl_digits L h 0]
  simp

/-- Every digit of a base-10 expansion is below ten. -/
theorem digits_lt_ten (n : ℕ) : ∀ d ∈ Nat.digits 10 n, d < 10 := fun d hd =>
  Nat.digits_lt_base (by norm_num) hd

/-- Reading back the rendered digits of a natural number. -/
theorem parseNat_renderNat (n : ℕ) : parseNatChars (renderNat n) = n := by
  unfold renderNat
  by_cases hz : n = 0
  · subst hz; decide
  · rw [if_neg hz, myDigits_eq]
    rw [parseNat_rev_map _ (digits_lt_ten n)]
    exact Nat.ofDigits_digits 10 n

/-- Every character of a rendered natural number is a digit. -/
theorem renderNat_digits (n : ℕ) : ∀ c ∈ renderNat n, c.isDigit = true := by
  unfold renderNat
  by_cases hz : n = 0
  · subst hz; intro c hc; simp at hc; subst hc; decide
  · rw [if_neg hz, myDigits_eq]
    intro c hc
    rw [List.mem_reverse] at hc
    obtain ⟨d, hd, rfl⟩ := List.mem_map.mp hc
    exact digitToChar_isDigit d (digits_lt_ten n d hd)

/-- A rendered natural number is non-empty. -/
theorem renderNat_ne_nil (n : ℕ) : renderNat n ≠ [] := by
  unfold renderNat
  by_cases hz : n = 0
  · subst hz; simp
  · rw [if_neg hz, myDigits_eq]
    simp only [ne_eq, List.reverse_eq_nil_iff, List.map_eq_nil_iff]
    exact Nat.digits_ne_nil_iff_ne_zero.mpr hz

/-- Reading leading zero padding does not change the value. -/
theorem parseNat_leftpad (k : ℕ) (l : List Char) :
    parseNatChars (List.leftpad k '0' l) = parseNatChars l := by
  unfold List.leftpad parseNatChars
  generalize (k - l.length) = m
  induction m with
  | zero => simp
  | succ m ih =>
    rw [List.replicate_succ, List.cons_append, List.foldl_cons]
    simpa using ih

/-- Dropping leading whitespace does nothing to an all-non-whitespace list. -/
theorem dropWhile_of_none {p : Char → Bool} (l : List Char) (h : ∀ c ∈ l, p c = false) :
    l.dropWhile p = l := by
  cases l with
  | nil => rfl
  | cons c rest => rw [List.dropWhile_cons_of_neg (by simp [h c (List.mem_cons_self _ _)])]

/-- Trimming does nothing to an all-non-whitespace list. -/
theorem trimChars_of_all (l : List Char) (h : ∀ c ∈ l, isWS c = false) : trimChars l = l := by
  unfold trimChars
  rw [dropWhile_of_none l h]
  rw [dropWhile_of_none l.reverse (fun c hc => h c (List.mem_reverse.mp hc))]
  exact List.reverse_reverse l

/-- A run of satisfying characters splits off a `takeWhile`. -/
theorem takeWhile_append_run {p : Char → Bool} (a : List Char) (ha : ∀ c ∈ a, p c = true) :
    ∀ rest : List Char, (∀ c, rest.head? = some c → p c = false) →
      (a ++ rest).takeWhile p = a ∧ (a ++ rest).drop a.length = rest := by
  induction a with
  | nil =>
    intro rest hrest
    constructor
    · cases rest with
      | nil => rfl
      | cons c r => exact List.takeWhile_cons_of_neg (by simp [hrest c rfl])
    · rfl
  | cons c a' ih =>
    intro rest hrest
    simp only [List.cons_append]
    obtain ⟨h1, h2⟩ := ih (fun d hd => ha d (List.mem_cons_of_mem _ hd)) rest hrest
    constructor
    · rw [List.takeWhile_cons_of_pos (ha c (List.mem_cons_self _ _))]
      rw [h1]
    · simp only [List.length_cons, List.drop_succ_cons]
      exact h2

/-- `takeWhile` keeps a list all of whose elements satisfy the predicate. -/
theorem takeWhile_of_all {p : Char → Bool} (l : List Char) (h : ∀ c ∈ l, p c = true) :
    l.takeWhile p = l := by
  induction l with
  | nil => rfl
  | cons c t ih =>
    rw [List.takeWhile_cons_of_pos (h c (List.mem_cons_self _ _))]
    rw [ih (fun d hd => h d (List.mem_cons_of_mem _ hd))]

/-- `dropWhile` keeps a list whose head fails the predicate. -/
theorem dropWhile_head_neg {p : Char → Bool} (l : List Char) (c : Char)
    (hc : l.head? = some c) (hp : p c = false) : l.dropWhile p = l := by
  cases l with
  | nil => rfl
  | cons d t =>
    simp only [List.head?_cons, Option.some.injEq] at hc
    subst hc
    exact List.dropWhile_cons_of_neg (by simp [hp])

/-- A digit character is not a sign, quote, dot, letter or whitespace, and
upper-casing fixes it. -/
theorem digit_char_facts (d : ℕ) (h : d < 10) :
    (digitToChar d).isDigit = true ∧ isWS (digitToChar d) = false ∧
      upperChar (digitToChar d) = digitToChar d ∧
      digitToChar d ≠ '-' ∧ digitToChar d ≠ '+' ∧ digitToChar d ≠ '\'' ∧
      digitToChar d ≠ '"' ∧ digitToChar d ≠ 'I' ∧ digitToChar d ≠ '.' := by
  interval_cases d <;> exact ⟨by decide, by decide, by decide, by decide, by decide, by decide,
    by decide, by decide, by decide⟩

/-- The sign-free `parseFloat` core consumes a pure digit string entirely. -/
theorem jsParseFloatCore_digits (ds : List Char) (hne : ds ≠ [])
    (hd : ∀ c ∈ ds, c.isDigit = true) :
    jsParseFloatCore ds = some ((parseNatChars ds : ℚ), []) := by
  have hemp : ds.isEmpty = false := by
    cases ds with
    | nil => exact absurd rfl hne
    | cons c t => rfl
  simp only [jsParseFloatCore]
  rw [takeWhile_of_all ds hd, List.drop_length]
  simp [hemp, parseNatChars]

/-- The sign-free `parseFloat` core consumes `digits.digits` entirely. -/
theorem jsParseFloatCore_decimal (ip fp : List Char) (hne : ip ≠ [])
    (hip : ∀ c ∈ ip, c.isDigit = true) (hfp : ∀ c ∈ fp, c.isDigit = true) :
    jsParseFloatCore (ip ++ '.' :: fp) =
      some ((parseNatChars ip : ℚ) + (parseNatChars fp : ℚ) / 10 ^ fp.length, []) := by
  have hemp : ip.isEmpty = false := by
    cases ip with
    | nil => exact absurd rfl hne
    | cons c t => rfl
  obtain ⟨htake, hdrop⟩ :=
    takeWhile_append_run ip hip ('.' :: fp) (by intro c hc; cases hc; decide)
  have hfp' : fp.takeWhile Char.isDigit = fp := takeWhile_of_all fp hfp
  simp only [jsParseFloatCore]
  rw [htake, hdrop]
  simp [hemp, hfp']

/-- `parseFloat` on a list not starting with a sign is the sign-free core. -/
theorem jsParseFloatAux_nosign (l : List Char)
    (hm : l.head? ≠ some '-') (hp : l.head? ≠ some '+') :
    jsParseFloatAux l = jsParseFloatCore l := by
  simp only [jsParseFloatAux, if_neg hm, if_neg (by simp [hm, hp] : ¬(l.head? = some '-' ∨ l.head? = some '+'))]
  cases h : jsParseFloatCore l with
  | none => rfl
  | some p => simp

/-- `parseFloat` after a minus sign negates the sign-free core. -/
theorem jsParseFloatAux_neg (l : List Char) :
    jsParseFloatAux ('-' :: l) = (jsParseFloatCore l).map (fun p => (-p.1, p.2)) := by
  simp only [jsParseFloatAux, List.head?_cons, List.tail_cons]
  cases h : jsParseFloatCore l with
  | none => simp [h]
  | some p => simp [h, neg_one_mul]

/-- A digit character is bounded by the digit range. -/
theorem char_isDigit_le (c : Char) (h : c.isDigit = true) : '0' ≤ c ∧ c ≤ '9' := by
  simp only [Char.isDigit, Bool.and_eq_true, decide_eq_true_eq] at h
  exact h

/-- A digit character differs from every non-digit character. -/
theorem isDigit_ne (c e : Char) (h : c.isDigit = true) (he : e.isDigit = false) : c ≠ e := by
  intro hx
  subst hx
  rw [h] at he
  cases he

/-- Digit characters are not whitespace. -/
theorem isWS_eq_false_of_isDigit (c : Char) (h : c.isDigit = true) : isWS c = false := by
  simp only [isWS, Bool.or_eq_false_iff, beq_eq_false_iff_ne]
  refine ⟨⟨⟨?_, ?_⟩, ?_⟩, ?_⟩ <;> (intro he; subst he; exact absurd h (by decide))

/-- Upper-casing fixes digit characters. -/
theorem upperChar_of_isDigit (c : Char) (h : c.isDigit = true) : upperChar c = c := by
  obtain ⟨h0, h9⟩ := char_isDigit_le c h
  unfold upperChar
  rw [if_neg]
  rintro ⟨ha, -⟩
  exact absurd (le_trans ha h9) (by decide)

/-- The head given by `head?` is a member. -/
theorem mem_of_head?_eq (l : List Char) (c : Char) (h : l.head? = some c) : c ∈ l := by
  cases l with
  | nil => cases h
  | cons d t =>
    simp only [List.head?_cons, Option.some.injEq] at h
    subst h
    exact List.mem_cons_self _ _

/-- Splitting a base-`b` digit expansion at position `k`. -/
theorem ofDigits_take_drop (b : ℕ) (L : List ℕ) (k : ℕ) :
    Nat.ofDigits b L = Nat.ofDigits b (L.take k) + b ^ k * Nat.ofDigits b (L.drop k) := by
  by_cases hk : L.length ≤ k
  · rw [List.take_of_length_le hk, List.drop_of_length_le hk]
    simp [Nat.ofDigits]
  · push_neg at hk
    conv_lhs => rw [← List.take_append_drop k L]
    rw [Nat.ofDigits_append, List.length_take, min_eq_left (le_of_lt hk)]

/-- `isFinite(Number(s))` succeeds on a trimmed string that `parseFloat`
consumes entirely, starts with a digit or minus and continues with a digit
or dot. -/
theorem jsFiniteNumber_of_decimal (l : List Char) (q : ℚ)
    (htrim : trimChars l = l) (hne : l ≠ [])
    (hhead : ∀ c, l.head? = some c → (c.isDigit = true ∨ c = '-'))
    (hsecond : ∀ c, l.tail.head? = some c → (c.isDigit = true ∨ c = '.'))
    (haux : jsParseFloatAux l = some (q, [])) :
    jsFiniteNumber l = some q := by
  have hemp : l.isEmpty = false := by
    cases l with
    | nil => exact absurd rfl hne
    | cons c t => rfl
  have hInf : ¬(l = "Infinity".toList ∨ l = "+Infinity".toList ∨ l = "-Infinity".toList) := by
    rintro (h | h | h)
    · subst h
      rcases hhead 'I' rfl with hd | hd
      · exact absurd hd (by decide)
      · exact absurd hd (by decide)
    · subst h
      rcases hhead '+' rfl with hd | hd
      · exact absurd hd (by decide)
      · exact absurd hd (by decide)
    · subst h
      rcases hsecond 'I' (by decide) with hd | hd
      · exact absurd hd (by decide)
      · exact absurd hd (by decide)
  have hx : ¬(l.head? = some '0' ∧ (l.tail.head? = some 'x' ∨ l.tail.head? = some 'X')) := by
    rintro ⟨-, hc | hc⟩
    · rcases hsecond 'x' hc with hd | hd
      · exact absurd hd (by decide)
      · exact absurd hd (by decide)
    · rcases hsecond 'X' hc with hd | hd
      · exact absurd hd (by decide)
      · exact absurd hd (by decide)
  have hb : ¬(l.head? = some '0' ∧ (l.tail.head? = some 'b' ∨ l.tail.head? = some 'B')) := by
    rintro ⟨-, hc | hc⟩
    · rcases hsecond 'b' hc with hd | hd
      · exact absurd hd (by decide)
      · exact absurd hd (by decide)
    · rcases hsecond 'B' hc with hd | hd
      · exact absurd hd (by decide)
      · exact absurd hd (by decide)
  have ho : ¬(l.head? = some '0' ∧ (l.tail.head? = some 'o' ∨ l.tail.head? = some 'O')) := by
    rintro ⟨-, hc | hc⟩
    · rcases hsecond 'o' hc with hd | hd
      · exact absurd hd (by decide)
      · exact absurd hd (by decide)
    · rcases hsecond 'O' hc with hd | hd
      · exact absurd hd (by decide)
      · exact absurd hd (by decide)
  simp only [jsFiniteNumber]
  rw [htrim, if_neg (by simp [hemp]), if_neg hInf, if_neg hx, if_neg hb, if_neg ho, haux]

/-- The lexical value decoder turns a trimmed, fully-numeric string that
starts with a digit or minus and continues with a digit or dot into the
parsed number. -/
theorem cleanValue_numeric (l : List Char) (q : ℚ)
    (htrim : trimChars l = l) (hne : l ≠ [])
    (hhead : ∀ c, l.head? = some c → (c.isDigit = true ∨ c = '-'))
    (hsecond : ∀ c, l.tail.head? = some c → (c.isDigit = true ∨ c = '.'))
    (haux : jsParseFloatAux l = some (q, [])) :
    cleanValue l = Value.num q := by
  have hfn := jsFiniteNumber_of_decimal l q htrim hne hhead hsecond haux
  obtain ⟨c, t, rfl⟩ : ∃ c t, l = c :: t := by
    cases l with
    | nil => exact absurd rfl hne
    | cons c t => exact ⟨c, t, rfl⟩
  have hc := hhead c rfl
  have hquote : ¬(((c :: t).head? = some '\'' ∧ (c :: t).getLast? = some '\'') ∨
      ((c :: t).head? = some '"' ∧ (c :: t).getLast? = some '"')) := by
    rintro (⟨h1, -⟩ | ⟨h1, -⟩) <;>
      (simp only [List.head?_cons, Option.some.injEq] at h1; subst h1) <;>
      rcases hc with hd | hd <;> exact absurd hd (by decide)
  have hnull : ¬((c :: t).map upperChar = "NULL".toList) := by
    intro h
    have hh : upperChar c = 'N' := by
      have := congrArg List.head? h
      simpa using this
    rcases hc with hd | hd
    · rw [upperChar_of_isDigit c hd] at hh
      subst hh
      exact absurd hd (by decide)
    · subst hd
      exact absurd hh (by decide)
  have hws : isWS c = false := by
    rcases hc with hd | hd
    · exact isWS_eq_false_of_isDigit c hd
    · subst hd; decide
  have hpf : jsParseFloat (c :: t) = some q := by
    simp only [jsParseFloat]
    rw [dropWhile_head_neg (c :: t) c List.head?_cons hws, haux]
    rfl
  simp only [cleanValue]
  rw [htrim, if_neg hquote, if_neg hnull, hpf, hfn]

/-- The lexical value decoder recovers an integer from its rendering. -/
theorem cleanValue_renderInt (i : ℤ) : cleanValue (renderInt i) = Value.num (i : ℚ) := by
  have hRd := renderNat_digits i.natAbs
  have hRne := renderNat_ne_nil i.natAbs
  have hpn := parseNat_renderNat i.natAbs
  by_cases hi : i < 0
  · rw [renderInt, if_pos hi]
    apply cleanValue_numeric
    · apply trimChars_of_all
      intro c hc
      rcases List.mem_cons.mp hc with rfl | hm
      · decide
      · exact isWS_eq_false_of_isDigit c (hRd c hm)
    · exact List.cons_ne_nil _ _
    · intro c h
      simp only [List.head?_cons, Option.some.injEq] at h
      subst h
      exact Or.inr rfl
    · intro c h
      simp only [List.tail_cons] at h
      exact Or.inl (hRd c (mem_of_head?_eq _ c h))
    · have hval : -((i.natAbs : ℚ)) = (i : ℚ) := by
        have h2 : (i.natAbs : ℤ) = -i := by omega
        have h3 : ((i.natAbs : ℚ)) = ((-i : ℤ) : ℚ) := by
          rw [show ((i.natAbs : ℚ)) = (((i.natAbs : ℕ) : ℤ) : ℚ) from (Int.cast_natCast _).symm,
            h2]
        rw [h3]
        push_cast
        ring
      rw [jsParseFloatAux_neg, jsParseFloatCore_digits _ hRne hRd, hpn]
      simp [hval]
  · rw [renderInt, if_neg hi]
    have hhead0 : ∀ c, (renderNat i.natAbs).head? = some c → c.isDigit = true :=
      fun c h => hRd c (mem_of_head?_eq _ c h)
    apply cleanValue_numeric
    · apply trimChars_of_all
      intro c hc
      exact isWS_eq_false_of_isDigit c (hRd c hc)
    · exact hRne
    · intro c h
      exact Or.inl (hhead0 c h)
    · intro c h
      exact Or.inl (hRd c (List.mem_of_mem_tail (mem_of_head?_eq _ c h)))
    · have hval : ((i.natAbs : ℚ)) = (i : ℚ) := by
        have h2 : (i.natAbs : ℤ) = i := by omega
        have h3 : ((i.natAbs : ℚ)) = ((i : ℤ) : ℚ) := by
          rw [show ((i.natAbs : ℚ)) = (((i.natAbs : ℕ) : ℤ) : ℚ) from (Int.cast_natCast _).symm,
            h2]
        simpa using h3
      rw [jsParseFloatAux_nosign _ (fun h => by simpa using hhead0 '-' h)
        (fun h => by simpa using hhead0 '+' h)]
      rw [jsParseFloatCore_digits _ hRne hRd, hpn, hval]

/-- The lexical value decoder recovers `m / 10 ^ k` from the decimal
rendering built out of any base-10 digit expansion of `m.natAbs` split at
position `k`. -/
theorem cleanValue_decimal_core (m : ℤ) (k : ℕ) (D : List ℕ)
    (hd10 : ∀ d ∈ D, d < 10) (hofd : Nat.ofDigits 10 D = m.natAbs) :
    cleanValue ((if m < 0 then ['-'] else []) ++
        (if ((D.map digitToChar).drop k).reverse.isEmpty then ['0']
         else ((D.map digitToChar).drop k).reverse) ++
        '.' :: List.leftpad k '0' (((D.map digitToChar).take k).reverse)) =
      Value.num ((m : ℚ) / 10 ^ k) := by
  have hdsd : ∀ c ∈ D.map digitToChar, c.isDigit = true := by
    intro c hc
    obtain ⟨d, hd, rfl⟩ := List.mem_map.mp hc
    exact digitToChar_isDigit d (hd10 d hd)
  set ip := ((D.map digitToChar).drop k).reverse with hip
  set fp := List.leftpad k '0' (((D.map digitToChar).take k).reverse) with hfp
  set ipart := (if ip.isEmpty then ['0'] else ip) with hipart
  have hip_digit : ∀ c ∈ ip, c.isDigit = true := by
    rw [hip]
    intro c hc
    exact hdsd c (List.drop_subset _ _ (List.mem_reverse.mp hc))
  have hipart_digit : ∀ c ∈ ipart, c.isDigit = true := by
    rw [hipart]
    by_cases he : ip.isEmpty
    · rw [if_pos he]
      intro c hc
      have hc0 : c = '0' := by simpa using hc
      rw [hc0]
      decide
    · rw [if_neg he]
      exact hip_digit
  have hfp_digit : ∀ c ∈ fp, c.isDigit = true := by
    rw [hfp, List.leftpad]
    intro c hc
    rcases List.mem_append.mp hc with h | h
    · rw [List.eq_of_mem_replicate h]
      decide
    · exact hdsd c (List.take_subset _ _ (List.mem_reverse.mp h))
  have hipart_ne : ipart ≠ [] := by
    rw [hipart]
    by_cases he : ip.isEmpty
    · rw [if_pos he]
      exact List.cons_ne_nil _ _
    · rw [if_neg he]
      intro h
      rw [h] at he
      exact he rfl
  have hfp_len : fp.length = k := by
    rw [hfp, List.leftpad_length, List.length_reverse, List.length_take]
    omega
  have hpn_fp : parseNatChars fp = Nat.ofDigits 10 (D.take k) := by
    rw [hfp, parseNat_leftpad]
    have hmt : ((D.map digitToChar).take k).reverse = ((D.take k).map digitToChar).reverse := by
      rw [List.map_take]
    rw [hmt, parseNat_rev_map]
    exact fun d hd => hd10 d (List.take_subset _ _ hd)
  have hpn_ipart : parseNatChars ipart = Nat.ofDigits 10 (D.drop k) := by
    rw [hipart]
    by_cases he : ip.isEmpty
    · rw [if_pos he]
      have hnil : D.drop k = [] := by
        rw [hip] at he
        have h1 : (D.map digitToChar).drop k = [] := by
          simpa using he
        have h2 : (D.drop k).map digitToChar = [] := by
          rw [List.map_drop]
          exact h1
        exact List.map_eq_nil_iff.mp h2
      rw [hnil]
      decide
    · rw [if_neg he, hip]
      have hmd : ((D.map digitToChar).drop k).reverse = ((D.drop k).map digitToChar).reverse := by
        rw [List.map_drop]
      rw [hmd, parseNat_rev_map]
      exact fun d hd => hd10 d (List.drop_subset _ _ hd)
  have h10 : (10 : ℚ) ^ k ≠ 0 := by positivity
  have hval : (parseNatChars ipart : ℚ) + (parseNatChars fp : ℚ) / 10 ^ fp.length =
      (m.natAbs : ℚ) / 10 ^ k := by
    rw [hpn_ipart, hpn_fp, hfp_len]
    have hnat : Nat.ofDigits 10 (D.take k) + 10 ^ k * Nat.ofDigits 10 (D.drop k) = m.natAbs := by
      rw [← ofDigits_take_drop 10 D k, hofd]
    have hq : ((Nat.ofDigits 10 (D.take k) : ℕ) : ℚ) +
        (10 : ℚ) ^ k * ((Nat.ofDigits 10 (D.drop k) : ℕ) : ℚ) = (m.natAbs : ℚ) := by
      exact_mod_cast congrArg (fun n : ℕ => (n : ℚ)) hnat
    field_simp
    linear_combination hq
  have hcore : jsParseFloatCore (ipart ++ '.' :: fp) = some ((m.natAbs : ℚ) / 10 ^ k, []) := by
    rw [jsParseFloatCore_decimal ipart fp hipart_ne hipart_digit hfp_digit, hval]
  obtain ⟨a, rest, ha⟩ := List.exists_cons_of_ne_nil hipart_ne
  have ha_digit : a.isDigit = true := by
    apply hipart_digit
    rw [ha]
    exact List.mem_cons_self _ _
  have hhead_full : ∀ c, (ipart ++ '.' :: fp).head? = some c → (c.isDigit = true ∨ c = '-') := by
    intro c hc
    rw [ha, List.cons_append, List.head?_cons] at hc
    simp only [Option.some.injEq] at hc
    subst hc
    exact Or.inl ha_digit
  have hsecond : ∀ c, (rest ++ '.' :: fp).head? = some c → (c.isDigit = true ∨ c = '.') := by
    intro c hc
    cases rest with
    | nil =>
      simp only [List.nil_append, List.head?_cons, Option.some.injEq] at hc
      subst hc
      exact Or.inr rfl
    | cons b t =>
      simp only [List.cons_append, List.head?_cons, Option.some.injEq] at hc
      refine Or.inl (hc ▸ hipart_digit b ?_)
      rw [ha]
      exact List.mem_cons_of_mem _ (List.mem_cons_self _ _)
  have htrim_all : ∀ c ∈ ipart ++ '.' :: fp, isWS c = false := by
    intro c hc
    rcases List.mem_append.mp hc with h | h
    · exact isWS_eq_false_of_isDigit c (hipart_digit c h)
    · rcases List.mem_cons.mp h with rfl | h2
      · decide
      · exact isWS_eq_false_of_isDigit c (hfp_digit c h2)
  by_cases hm0 : m < 0
  · rw [if_pos hm0]
    have hcast : -((m.natAbs : ℚ)) = (m : ℚ) := by
      have h2 : (m.natAbs : ℤ) = -m := by omega
      have h3 : ((m.natAbs : ℚ)) = ((-m : ℤ) : ℚ) := by
        rw [show ((m.natAbs : ℚ)) = (((m.natAbs : ℕ) : ℤ) : ℚ) from (Int.cast_natCast _).symm,
          h2]
      rw [h3]
      push_cast
      ring
    have hs : -((m.natAbs : ℚ) / 10 ^ k) = (m : ℚ) / 10 ^ k := by
      rw [← neg_div, hcast]
    have hl : (['-'] : List Char) ++ ipart ++ '.' :: fp = '-' :: (ipart ++ '.' :: fp) := by
      simp
    rw [hl]
    apply cleanValue_numeric
    · apply trimChars_of_all
      intro c hc
      rcases List.mem_cons.mp hc with rfl | h
      · decide
      · exact htrim_all c h
    · exact List.cons_ne_nil _ _
    · intro c hc
      simp only [List.head?_cons, Option.some.injEq] at hc
      subst hc
      exact Or.inr rfl
    · intro c hc
      rw [List.tail_cons, ha, List.cons_append, List.head?_cons] at hc
      simp only [Option.some.injEq] at hc
      subst hc
      exact Or.inl ha_digit
    · rw [jsParseFloatAux_neg, hcore]
      simp [hs]
  · rw [if_neg hm0]
    have hcast : ((m.natAbs : ℚ)) = (m : ℚ) := by
      have h2 : (m.natAbs : ℤ) = m := by omega
      have h3 : ((m.natAbs : ℚ)) = ((m : ℤ) : ℚ) := by
        rw [show ((m.natAbs : ℚ)) = (((m.natAbs : ℕ) : ℤ) : ℚ) from (Int.cast_natCast _).symm,
          h2]
      simpa using h3
    have hl : ([] : List Char) ++ ipart ++ '.' :: fp = ipart ++ '.' :: fp := by
      simp
    rw [hl]
    apply cleanValue_numeric
    · exact trimChars_of_all _ htrim_all
    · intro h
      exact hipart_ne (List.append_eq_nil.mp h).1
    · exact hhead_full
    · intro c hc
      rw [ha, List.cons_append, List.tail_cons] at hc
      exact hsecond c hc
    · rw [jsParseFloatAux_nosign, hcore, hcast]
      · intro h
        rw [ha, List.cons_append, List.head?_cons] at h
        simp only [Option.some.injEq] at h
        rw [h] at ha_digit
        exact absurd ha_digit (by decide)
      · intro h
        rw [ha, List.cons_append, List.head?_cons] at h
        simp only [Option.some.injEq] at h
        rw [h] at ha_digit
        exact absurd ha_digit (by decide)

/-- When some exponent below 400 clears the denominator, the printing
exponent search finds one that does. -/
theorem decExp_spec (q : ℚ) (h : ∃ k, k < 400 ∧ (q * 10 ^ k).den = 1) :
    ∃ k, decExp q = some k ∧ (q * 10 ^ k).den = 1 := by
  obtain ⟨k, hk, hd⟩ := h
  have hsome : (decExp q).isSome := by
    rw [decExp, List.find?_isSome]
    exact ⟨k, List.mem_range.mpr hk, by simpa using hd⟩
  obtain ⟨k', hk'⟩ := Option.isSome_iff_exists.mp hsome
  refine ⟨k', hk', ?_⟩
  rw [decExp] at hk'
  have := List.find?_some hk'
  simpa using this

/-- The lexical value decoder recovers any number whose decimal expansion
terminates within 400 fractional digits from its string rendering. -/
theorem cleanValue_numToChars (q : ℚ) (h : ∃ k, k < 400 ∧ (q * 10 ^ k).den = 1) :
    cleanValue (numToChars q) = Value.num q := by
  by_cases hden : q.den = 1
  · have hform : numToChars q = renderInt q.num := by
      simp only [numToChars]
      rw [if_pos hden]
    rw [hform, cleanValue_renderInt]
    congr 1
    have hq := Rat.num_div_den q
    rw [hden] at hq
    simpa using hq
  · obtain ⟨k, hdec, hk⟩ := decExp_spec q h
    have hform : numToChars q = (if (q * 10 ^ k).num < 0 then ['-'] else []) ++
        (if ((((myDigits (q * 10 ^ k).num.natAbs).map digitToChar).drop k).reverse).isEmpty
         then ['0']
         else (((myDigits (q * 10 ^ k).num.natAbs).map digitToChar).drop k).reverse) ++
        '.' :: List.leftpad k '0'
          ((((myDigits (q * 10 ^ k).num.natAbs).map digitToChar).take k).reverse) := by
      simp only [numToChars]
      rw [if_neg hden, hdec]
    rw [hform, myDigits_eq]
    rw [cleanValue_decimal_core ((q * 10 ^ k).num) k
      (Nat.digits 10 ((q * 10 ^ k).num.natAbs)) (digits_lt_ten _) (Nat.ofDigits_digits 10 _)]
    congr 1
    have hnum : (((q * 10 ^ k).num : ℤ) : ℚ) = q * 10 ^ k := by
      have hq := Rat.num_div_den (q * 10 ^ k)
      rw [hk] at hq
      simpa using hq
    rw [hnum]
    have h10 : (10 : ℚ) ^ k ≠ 0 := by positivity
    field_simp

/-- Un-escaping a quote that never occurs does nothing. -/
theorem unescape_id (q : Char) (l : List Char) (h : q ∉ l) : unescape q l = l := by
  induction l with
  | nil => rfl
  | cons c t ih =>
    cases t with
    | nil => rfl
    | cons c2 rest =>
      rw [unescape, if_neg]
      · rw [ih (fun hx => h (List.mem_cons_of_mem _ hx))]
      · rintro ⟨-, h2⟩
        exact h (h2 ▸ List.mem_cons_of_mem _ (List.mem_cons_self _ _))

/-- Doubling double-quotes does nothing to a quote-free string. -/
theorem doubleQuotes_id (s : String) (h : '"' ∉ s.toList) : doubleQuotes s = s := by
  have hmap : s.toList.map (fun c => if c = '"' then ['"', '"'] else [c]) =
      s.toList.map (fun c => [c]) := by
    apply List.map_congr_left
    intro c hc
    rw [if_neg]
    intro he
    exact h (he ▸ hc)
  have hflat : ∀ l : List Char, (l.map (fun c => [c])).flatten = l := by
    intro l
    induction l with
    | nil => rfl
    | cons c t ih => simp [ih]
  rw [doubleQuotes, hmap, hflat]
  rfl

/-- Trimming does nothing when both ends are non-whitespace. -/
theorem trimChars_of_head_last (l : List Char) (c d : Char)
    (hhead : l.head? = some c) (hlast : l.getLast? = some d)
    (hc : isWS c = false) (hd : isWS d = false) : trimChars l = l := by
  unfold trimChars
  rw [dropWhile_head_neg l c hhead hc,
    dropWhile_head_neg l.reverse d (by rw [List.head?_reverse]; exact hlast) hd]
  exact List.reverse_reverse l

/-- The lexical value decoder strips a double-quote wrapper and keeps the
inner text verbatim when it holds no double quote and no escaped single
quote. -/
theorem cleanValue_wrapped (s : String) (h1 : '"' ∉ s.toList)
    (h2 : unescape '\'' s.toList = s.toList) :
    cleanValue ('"' :: (s.toList ++ ['"'])) = Value.str s := by
  have hlast : ('"' :: (s.toList ++ ['"'])).getLast? = some '"' := by
    rw [show ('"' :: (s.toList ++ ['"'])) = ('"' :: s.toList) ++ ['"'] from rfl]
    exact List.getLast?_concat _
  have htrim : trimChars ('"' :: (s.toList ++ ['"'])) = '"' :: (s.toList ++ ['"']) :=
    trimChars_of_head_last _ '"' '"' List.head?_cons hlast (by decide) (by decide)
  simp only [cleanValue]
  rw [htrim, if_pos (Or.inr ⟨List.head?_cons, hlast⟩)]
  rw [show ('"' :: (s.toList ++ ['"'])).drop 1 = s.toList ++ ['"'] from rfl,
    List.dropLast_concat, h2, unescape_id '"' _ h1]
  rfl

/-- The lexical value decoder keeps a trimmed, unquoted, non-`NULL`,
non-numeric string verbatim. -/
theorem cleanValue_plain (s : String)
    (htrim : trimChars s.toList = s.toList)
    (hq : ¬((s.toList.head? = some '\'' ∧ s.toList.getLast? = some '\'') ∨
      (s.toList.head? = some '"' ∧ s.toList.getLast? = some '"')))
    (hnull : s.toList.map upperChar ≠ "NULL".toList)
    (hnum : jsParseFloat s.toList = none ∨ jsFiniteNumber s.toList = none) :
    cleanValue s.toList = Value.str s := by
  simp only [cleanValue]
  rw [htrim, if_neg hq, if_neg hnull]
  rcases hnum with h | h
  · rw [h]
    rfl
  · rw [h]
    cases jsParseFloat s.toList <;> rfl

/-- C8 counterexample: a null cell exports to the empty field, which the
decoder reads back as the empty string, not null; and a string holding a
double quote exports with doubled quotes that the decoder (which only
un-escapes backslash-quote) does not fold back, so the recovered string
has doubled quotes. -/
theorem c8_counterexample :
    exportField Value.null = "" ∧
    cleanValue (("" : String).toList) = Value.str "" ∧
    Value.str "" ≠ Value.null ∧
    exportField (Value.str "a\"b") = "\"a\"\"b\"" ∧
    cleanValue ((exportField (Value.str "a\"b")).toList) = Value.str "a\"\"b" ∧
    Value.str "a\"\"b" ≠ Value.str "a\"b" := by
  refine ⟨rfl, by decide, by decide, by decide, by decide, by decide⟩

/-- C8 (amended): re-decoding an exported field recovers the value exactly
for a number cell whose decimal expansion terminates within 400 fractional
digits, and for a string cell that contains no double quote, no escaped
single quote, is already trimmed, is not single-quote-wrapped, is not a
case-variant of NULL and does not parse as a finite number; null and
undefined cells come back as the empty string, and other cells may come
back altered. -/
theorem c8_export_roundtrip (v : Value)
    (hnum : ∀ q : ℚ, v = Value.num q → ∃ k, k < 400 ∧ (q * 10 ^ k).den = 1)
    (hstr : ∀ s : String, v = Value.str s →
      '"' ∉ s.toList ∧ unescape '\'' s.toList = s.toList ∧
      trimChars s.toList = s.toList ∧
      ¬((s.toList.head? = some '\'' ∧ s.toList.getLast? = some '\'') ∨
        (s.toList.head? = some '"' ∧ s.toList.getLast? = some '"')) ∧
      s.toList.map upperChar ≠ "NULL".toList ∧
      (jsParseFloat s.toList = none ∨ jsFiniteNumber s.toList = none))
    (hn1 : v ≠ Value.null) (hn2 : v ≠ Value.undef) :
    cleanValue ((exportField v).toList) = v := by
  cases v with
  | null => exact absurd rfl hn1
  | undef => exact absurd rfl hn2
  | num q =>
    exact cleanValue_numToChars q (hnum q rfl)
  | str s =>
    obtain ⟨h1, h2, h3, h4, h5, h6⟩ := hstr s rfl
    by_cases hc : (s.toList.contains ',' || s.toList.contains '"') = true
    · have hfield : exportField (Value.str s) = "\"" ++ doubleQuotes s ++ "\"" := by
        simp only [exportField]
        rw [if_pos hc]
      rw [hfield, doubleQuotes_id s h1]
      have hlist : ("\"" ++ s ++ "\"").toList = '"' :: (s.toList ++ ['"']) := by
        simp [String.toList, String.data_append]
      rw [hlist]
      exact cleanValue_wrapped s h1 h2
    · have hfield : exportField (Value.str s) = s := by
        simp only [exportField]
        rw [if_neg hc]
      rw [hfield]
      exact cleanValue_plain s h3 h4 h5 h6

/-- C8 witness: a comma-bearing plain string round-trips through the
quoted CSV field back to itself. -/
theorem c8_export_roundtrip_witness :
    cleanValue ((exportField (Value.str "a,b")).toList) = Value.str "a,b" :=
  c8_export_roundtrip (Value.str "a,b")
    (fun _ hq => nomatch hq)
    (fun s hs => by
      injection hs with hs'
      subst hs'
      exact ⟨by decide, by decide, by decide, by decide, by decide, Or.inl (by decide)⟩)
    (by decide) (by decide)

end Sqlplorer
